import Mathlib

/-!
# Verification of the PDF ingestion / retrieval pipeline

Shallow embedding of the core services of the `ai-pdf-complete-monorepo`
backend, together with proofs about the claims of its specification.

Modelling conventions, used throughout:

* JavaScript numbers are modelled exactly: integer-valued quantities as `Int`
  or `Nat`, fractional arithmetic (progress percentages, page estimation,
  cosine similarity) as `Rat` or `Real`.  Floating-point rounding is not
  modelled.
* JavaScript strings are modelled as `String` where they are only compared
  for equality, and as `List Char` (abbreviated `Str`) where the code indexes
  into them (the chunker).
* External collaborators (the embedding gateway `generateEmbeddings`, and the
  regular-expression engine used for the advisory financial-content
  heuristics) are modelled as oracle parameters: arbitrary functions supplied
  to the embedded code.  All substring / `lastIndexOf` / `trim` string logic
  of the chunker is modelled concretely.
* `Map` objects are modelled as association lists in insertion order
  (JavaScript `Map` iteration order), `Set` objects as lists of keys.
* Code that runs forever is modelled with a fuel parameter: the embedded
  function returns `none` when the loop has not finished within `fuel`
  iterations, and `some result` when it has.
-/

set_option maxRecDepth 4000

namespace PdfRag

variable {α : Type} {β : Type}

/-! ## Document Status Tracker (`src/backend/src/services/documentStatusService.js`)

`DocumentStatusService` keeps a `Map` from document id to a status record.
The record's caller-supplied metadata fields (filename, file size, …) are not
observed by any claim and are omitted; the `status`, `progress`,
`progressMessage` and `error` fields are kept.
-/

/-- The six document statuses of `DocumentStatusService.STATUS`. -/
inductive DocStatus where
  | uploading
  | uploaded
  | processing
  | vectorizing
  | completed
  | error
deriving DecidableEq, Repr

/-- One value of the tracker's `Map` (`statusInfo` built by `setStatus`).
`progress`, `progressMessage` and `error` are `Option`s because the
corresponding JavaScript fields are absent until first written. -/
structure StatusInfo where
  documentId : String
  status : DocStatus
  progress : Option Rat
  progressMessage : Option String
  error : Option String
deriving DecidableEq, Repr

/-- The tracker state: `this.documentStatus`, a `Map` in insertion order. -/
structure DocStatusState where
  statuses : List (String × StatusInfo)
deriving DecidableEq, Repr

/-- `Map.set`: replace the value under an existing key in place, otherwise
append the new binding (JavaScript `Map` keeps first-insertion order). -/
def mapSet (k : String) (v : StatusInfo) : List (String × StatusInfo) → List (String × StatusInfo)
  | [] => [(k, v)]
  | p :: rest => if p.1 == k then (k, v) :: rest else p :: mapSet k v rest

/-- `getStatus(documentId)`: `Map.get`, `null` (here `none`) when absent. -/
def getStatus (documentId : String) (s : DocStatusState) : Option StatusInfo :=
  (s.statuses.find? (fun p => p.1 == documentId)).map (·.2)

/-- `setStatus(documentId, status, metadata)`: builds a fresh record and
stores it under the id.  The caller-supplied metadata spread is modelled by
the three optional fields actually passed by the callers in the source. -/
def setStatus (documentId : String) (status : DocStatus) (progress : Option Rat)
    (progressMessage : Option String) (error : Option String) (s : DocStatusState) :
    DocStatusState :=
  { statuses := mapSet documentId
      { documentId := documentId, status := status, progress := progress
        progressMessage := progressMessage, error := error } s.statuses }

/-- `markCompleted(documentId, completionData)`: `setStatus` with status
`completed`, `progress: 100` and the fixed progress message; the remaining
`completionData` fields are metadata not observed by any claim. -/
def markCompleted (documentId : String) (s : DocStatusState) : DocStatusState :=
  setStatus documentId DocStatus.completed (some 100) (some "Document ready for chat") none s

/-- `markError(documentId, error)`: `setStatus` with status `error`. -/
def markError (documentId : String) (error : String) (s : DocStatusState) : DocStatusState :=
  setStatus documentId DocStatus.error none none (some error) s

/-- `updateProgress(documentId, progress, message)`: in-place update of the
progress fields of an existing record; no-op on an unknown id. -/
def updateProgressDoc (documentId : String) (progress : Rat) (message : Option String)
    (s : DocStatusState) : DocStatusState :=
  { statuses := s.statuses.map (fun p =>
      if p.1 == documentId then
        (p.1, { p.2 with progress := some progress, progressMessage := message })
      else p) }

/-- `isReadyForChat(documentId)`: `status && status.status === COMPLETED`.
The JavaScript expression evaluates to `null` (falsy) on an unknown id and to
a boolean otherwise; it is consumed only for its truthiness, so the model
returns `false` for the `null` case. -/
def isReadyForChat (documentId : String) (s : DocStatusState) : Bool :=
  match getStatus documentId s with
  | none => false
  | some st => st.status == DocStatus.completed

/-- `isProcessing(documentId)`: membership of the status in the four
non-terminal statuses, `false` on an unknown id. -/
def isProcessing (documentId : String) (s : DocStatusState) : Bool :=
  match getStatus documentId s with
  | none => false
  | some st =>
      st.status == DocStatus.uploading || st.status == DocStatus.uploaded ||
      st.status == DocStatus.processing || st.status == DocStatus.vectorizing

theorem isReadyForChat_eq_true_iff (documentId : String) (s : DocStatusState) :
    isReadyForChat documentId s = true ↔
      ∃ info, getStatus documentId s = some info ∧ info.status = DocStatus.completed := by
  unfold isReadyForChat
  cases h : getStatus documentId s with
  | none => simp
  | some st =>
      constructor
      · intro hst
        exact ⟨st, rfl, by simpa using hst⟩
      · rintro ⟨info, hinfo, hst⟩
        cases hinfo
        simpa using hst

/-! ## Generic list machinery

`Array.prototype.splice(i, 1)` is `List.eraseIdx i`.  `deleteDocument` first
collects the (ascending) list of matching indices and then erases them in
descending order; `spliceAllDesc` is that loop, and `matchIdx` is the
index-collecting loop.  The lemmas characterise the composition as a `filter`.
-/

/-- Erase the positions `is` (processed in reverse, i.e. descending when `is`
is ascending) from `l`: the `for (let i = indicesToRemove.length - 1; ...)`
splice loop of `deleteDocument`. -/
def spliceAllDesc (l : List α) (is : List Nat) : List α :=
  is.reverse.foldl (fun acc i => acc.eraseIdx i) l

/-- The ascending list of indices of elements satisfying `q`: the
`indicesToRemove` collection loop of `deleteDocument`. -/
def matchIdx (q : α → Bool) : List α → List Nat
  | [] => []
  | x :: xs => (if q x then [0] else []) ++ (matchIdx q xs).map (· + 1)

theorem spliceAllDesc_nil_idx (l : List α) : spliceAllDesc l [] = l := rfl

theorem spliceAllDesc_cons (l : List α) (i : Nat) (is : List Nat) :
    spliceAllDesc l (i :: is) = (spliceAllDesc l is).eraseIdx i := by
  simp [spliceAllDesc, List.foldl_append]

theorem spliceAllDesc_shift (x : α) (xs : List α) (is : List Nat)
    (h : ∀ j ∈ is, 1 ≤ j) :
    spliceAllDesc (x :: xs) is = x :: spliceAllDesc xs (is.map (· - 1)) := by
  induction is with
  | nil => rfl
  | cons i rest ih =>
      obtain ⟨k, rfl⟩ : ∃ k, i = k + 1 := by
        have := h i (List.mem_cons_self i rest)
        exact ⟨i - 1, by omega⟩
      rw [spliceAllDesc_cons, ih (fun j hj => h j (List.mem_cons_of_mem _ hj)),
        List.eraseIdx_cons_succ, List.map_cons]
      rw [spliceAllDesc_cons]
      simp

/-- The splice loop, run with the indices matching `q` on `l`, acts on any
parallel image `l.map f` of `l` as filtering out the matching positions. -/
theorem spliceAllDesc_matchIdx_map (f : α → β) (q : α → Bool) :
    ∀ l : List α,
      spliceAllDesc (l.map f) (matchIdx q l) = (l.filter (fun a => !q a)).map f := by
  intro l
  induction l with
  | nil => rfl
  | cons x xs ih =>
      by_cases hq : q x
      · have h1 : matchIdx q (x :: xs) = 0 :: (matchIdx q xs).map (· + 1) := by
          simp [matchIdx, hq]
        rw [h1, List.map_cons, spliceAllDesc_cons, spliceAllDesc_shift _ _ _
          (by intro j hj; obtain ⟨k, _, rfl⟩ := List.mem_map.mp hj; omega)]
        simp only [List.map_map]
        have h2 : ((· - 1) ∘ (· + 1) : Nat → Nat) = id := by
          funext n; simp
        rw [h2, List.map_id, List.eraseIdx_cons_zero, ih, List.filter_cons]
        simp [hq]
      · have h1 : matchIdx q (x :: xs) = (matchIdx q xs).map (· + 1) := by
          simp [matchIdx, hq]
        rw [h1, List.map_cons, spliceAllDesc_shift _ _ _
          (by intro j hj; obtain ⟨k, _, rfl⟩ := List.mem_map.mp hj; omega)]
        simp only [List.map_map]
        have h2 : ((· - 1) ∘ (· + 1) : Nat → Nat) = id := by
          funext n; simp
        rw [h2, List.map_id, ih, List.filter_cons]
        simp [hq]

theorem spliceAllDesc_matchIdx (q : α → Bool) (l : List α) :
    spliceAllDesc l (matchIdx q l) = l.filter (fun a => !q a) := by
  have := spliceAllDesc_matchIdx_map (id : α → α) q l
  simpa using this

theorem matchIdx_map (g : α → β) (q : β → Bool) (l : List α) :
    matchIdx q (l.map g) = matchIdx (fun a => q (g a)) l := by
  induction l with
  | nil => rfl
  | cons x xs ih => simp [matchIdx, ih]

/-! ### Stable sort

`Array.prototype.sort` is stable (ECMAScript 2019); with the comparator
`(a, b) => b.similarity - a.similarity` it orders descending by similarity,
equal similarities keeping their original order.  Any stable descending sort
computes the same list; we embed it as an insertion sort.  `lt x y` decides
"x sorts strictly after y" (strictly smaller value). -/

/-- Insert `x` after every element strictly greater than it: the new element
comes before all elements of equal value, which is what a stable sort does to
an element originally preceding them. -/
def insertDescBy (lt : α → α → Bool) (x : α) : List α → List α
  | [] => [x]
  | y :: ys => if lt x y then y :: insertDescBy lt x ys else x :: y :: ys

/-- Stable descending insertion sort. -/
def stableSortDesc (lt : α → α → Bool) : List α → List α
  | [] => []
  | x :: xs => insertDescBy lt x (stableSortDesc lt xs)

theorem insertDescBy_perm (lt : α → α → Bool) (x : α) (l : List α) :
    (insertDescBy lt x l).Perm (x :: l) := by
  induction l with
  | nil => exact List.Perm.refl _
  | cons y ys ih =>
      by_cases h : lt x y
      · simp only [insertDescBy, h, if_true]
        exact (ih.cons y).trans (List.Perm.swap x y ys)
      · simp [insertDescBy, h, List.Perm.refl]

theorem stableSortDesc_perm (lt : α → α → Bool) (l : List α) :
    (stableSortDesc lt l).Perm l := by
  induction l with
  | nil => exact List.Perm.refl _
  | cons x xs ih =>
      exact (insertDescBy_perm lt x (stableSortDesc lt xs)).trans (ih.cons x)

section SortSpec

variable {γ : Type} [LinearOrder γ] (val : α → γ) (lt : α → α → Bool)

theorem insertDescBy_pairwise (hlt : ∀ x y, lt x y = true ↔ val x < val y)
    (x : α) (l : List α)
    (h : l.Pairwise (fun a b => val b ≤ val a)) :
    (insertDescBy lt x l).Pairwise (fun a b => val b ≤ val a) := by
  induction l with
  | nil => simp [insertDescBy]
  | cons y ys ih =>
      rcases List.pairwise_cons.mp h with ⟨hy, hys⟩
      by_cases hxy : lt x y
      · simp only [insertDescBy, hxy, if_true]
        refine List.pairwise_cons.mpr ⟨?_, ih hys⟩
        intro z hz
        rcases List.mem_cons.mp ((insertDescBy_perm lt x ys).mem_iff.mp hz) with rfl | hz
        · exact le_of_lt ((hlt z y).mp hxy)
        · exact hy z hz
      · simp only [insertDescBy, hxy, if_false]
        have hyx : val y ≤ val x := le_of_not_lt (fun hc => hxy ((hlt x y).mpr hc))
        refine List.pairwise_cons.mpr ⟨?_, h⟩
        intro z hz
        rcases List.mem_cons.mp hz with rfl | hz
        · exact hyx
        · exact le_trans (hy z hz) hyx

theorem stableSortDesc_pairwise (hlt : ∀ x y, lt x y = true ↔ val x < val y)
    (l : List α) :
    (stableSortDesc lt l).Pairwise (fun a b => val b ≤ val a) := by
  induction l with
  | nil => simp [stableSortDesc]
  | cons x xs ih => exact insertDescBy_pairwise val lt hlt x _ ih

/-- The equal-value positions after an insertion are: the inserted element
first (when it matches), then the old ones in order — the filter
characterisation of stability. -/
theorem insertDescBy_filter (hlt : ∀ x y, lt x y = true ↔ val x < val y)
    (w : γ) (eqv : α → Bool)
    (heq : ∀ z, eqv z = true ↔ val z = w) (x : α) (l : List α) :
    (insertDescBy lt x l).filter eqv =
      if eqv x then x :: l.filter eqv else l.filter eqv := by
  induction l with
  | nil => by_cases hx : eqv x <;> simp [insertDescBy, hx]
  | cons y ys ih =>
      by_cases hxy : lt x y
      · by_cases hx : eqv x
        · have hyv : eqv y = false := by
            refine Bool.eq_false_iff.mpr (fun hy => ?_)
            have h1 : val x = w := (heq x).mp hx
            have h2 : val y = w := (heq y).mp hy
            have h3 : val x < val y := (hlt x y).mp hxy
            rw [h1, h2] at h3
            exact lt_irrefl _ h3
          simp only [insertDescBy, hxy, if_true, List.filter_cons, hyv,
            Bool.false_eq_true, if_false, ih, hx, if_true]
        · simp only [insertDescBy, hxy, if_true, List.filter_cons, ih, hx,
            Bool.false_eq_true, if_false]
      · simp only [insertDescBy, hxy, if_false, List.filter_cons]
        by_cases hx : eqv x <;> simp [hx, List.filter_cons]

theorem stableSortDesc_filter (hlt : ∀ x y, lt x y = true ↔ val x < val y)
    (w : γ) (eqv : α → Bool)
    (heq : ∀ z, eqv z = true ↔ val z = w) (l : List α) :
    (stableSortDesc lt l).filter eqv = l.filter eqv := by
  induction l with
  | nil => rfl
  | cons x xs ih =>
      rw [stableSortDesc, insertDescBy_filter val lt hlt w eqv heq, List.filter_cons, ih]

end SortSpec

/-! ## Cosine similarity (`MemoryVectorService.cosineSimilarity`)

JavaScript computes `dot(a,b) / (sqrt(Σa²) * sqrt(Σb²))` as a float.  We
model vector components exactly as rationals; the similarity value is then
the real number `d / √M` with `d = dot(a,b)` and `M = Σa² * Σb²` (since
`√x·√y = √(xy)` for non-negative `x`).  The pair `(d, M) : ℚ × ℚ` represents
the value exactly, `simValue` interprets it, and `simLT`/`simEQ` decide
comparisons of the represented reals computably (sign analysis plus
cross-multiplied squares). -/

/-- `reduce((sum, a, i) => sum + a * vecB[i], 0)`: the dot product.  The
source iterates over the indices of `vecA`; both store and query vectors
always have matching lengths in well-formed use, which `zipWith` models. -/
def dotProduct (vecA vecB : List Rat) : Rat :=
  (List.zipWith (· * ·) vecA vecB).sum

/-- `reduce((sum, a) => sum + a * a, 0)`: the squared magnitude. -/
def sumSquares (v : List Rat) : Rat :=
  (v.map (fun a => a * a)).sum

/-- `dotProduct / (magnitudeA * magnitudeB)` with `magnitude = √sumSquares`,
exactly as in `cosineSimilarity`.  `Real` division by zero is `0`, standing
in for the JavaScript `NaN` produced on zero-magnitude inputs. -/
noncomputable def cosineSimilarity (vecA vecB : List Rat) : Real :=
  (dotProduct vecA vecB : Real) /
    (Real.sqrt (sumSquares vecA : Real) * Real.sqrt (sumSquares vecB : Real))

/-- The real number represented by a `(dot, magnitude-product-squared)` pair. -/
noncomputable def simValue (p : Rat × Rat) : Real :=
  (p.1 : Real) / Real.sqrt (p.2 : Real)

/-- Sign of the represented value: `0` when the denominator vanishes
(`M ≤ 0`) or the numerator is zero, otherwise the sign of the numerator. -/
def simSign (d M : Rat) : Int :=
  if M ≤ 0 then 0 else if 0 < d then 1 else if d < 0 then -1 else 0

/-- Decides `simValue p < simValue q`. -/
def simLT (p q : Rat × Rat) : Bool :=
  let s1 := simSign p.1 p.2
  let s2 := simSign q.1 q.2
  if s1 < s2 then true
  else if s2 < s1 then false
  else if s1 = 1 then decide (p.1 ^ 2 * q.2 < q.1 ^ 2 * p.2)
  else if s1 = -1 then decide (q.1 ^ 2 * p.2 < p.1 ^ 2 * q.2)
  else false

/-- Decides `simValue p = simValue q`. -/
def simEQ (p q : Rat × Rat) : Bool :=
  !simLT p q && !simLT q p

theorem sumSquares_nonneg (v : List Rat) : 0 ≤ sumSquares v := by
  refine List.sum_nonneg ?_
  intro x hx
  obtain ⟨a, _, rfl⟩ := List.mem_map.mp hx
  exact mul_self_nonneg a

theorem cosineSimilarity_eq_simValue (vecA vecB : List Rat) :
    cosineSimilarity vecA vecB =
      simValue (dotProduct vecA vecB, sumSquares vecA * sumSquares vecB) := by
  unfold cosineSimilarity simValue
  have h : ((sumSquares vecA * sumSquares vecB : Rat) : Real) =
      (sumSquares vecA : Real) * (sumSquares vecB : Real) := by push_cast; ring
  rw [h, Real.sqrt_mul (by exact_mod_cast sumSquares_nonneg vecA)]

theorem simValue_zero (d M : Rat) (h : M ≤ 0 ∨ d = 0) : simValue (d, M) = 0 := by
  rcases h with h | h
  · have hM : ((M : Real)) ≤ 0 := by exact_mod_cast h
    have : Real.sqrt (M : Real) = 0 := Real.sqrt_eq_zero_of_nonpos hM
    simp [simValue, this]
  · simp [simValue, h]

theorem simValue_pos (d M : Rat) (hM : 0 < M) (hd : 0 < d) : 0 < simValue (d, M) := by
  have hs : (0:Real) < Real.sqrt (M : Real) := Real.sqrt_pos.mpr (by exact_mod_cast hM)
  exact div_pos (by exact_mod_cast hd) hs

theorem simValue_neg (d M : Rat) (hM : 0 < M) (hd : d < 0) : simValue (d, M) < 0 := by
  have hs : (0:Real) < Real.sqrt (M : Real) := Real.sqrt_pos.mpr (by exact_mod_cast hM)
  exact div_neg_of_neg_of_pos (by exact_mod_cast hd) hs

theorem simSign_eq_one_iff (d M : Rat) : simSign d M = 1 ↔ 0 < M ∧ 0 < d := by
  unfold simSign
  split_ifs with h1 h2 h3
  · constructor
    · intro h; exact absurd h (by decide)
    · rintro ⟨hM, _⟩; linarith
  · exact ⟨fun _ => ⟨not_le.mp h1, h2⟩, fun _ => rfl⟩
  · constructor
    · intro h; exact absurd h (by decide)
    · rintro ⟨_, hd⟩; exact absurd hd h2
  · constructor
    · intro h; exact absurd h (by decide)
    · rintro ⟨_, hd⟩; exact absurd hd h2

theorem simSign_eq_negOne_iff (d M : Rat) : simSign d M = -1 ↔ 0 < M ∧ d < 0 := by
  unfold simSign
  split_ifs with h1 h2 h3
  · constructor
    · intro h; exact absurd h (by decide)
    · rintro ⟨hM, _⟩; linarith
  · constructor
    · intro h; exact absurd h (by decide)
    · rintro ⟨_, hd⟩; linarith
  · exact ⟨fun _ => ⟨not_le.mp h1, h3⟩, fun _ => rfl⟩
  · constructor
    · intro h; exact absurd h (by decide)
    · rintro ⟨_, hd⟩; exact absurd hd h3

theorem simSign_eq_zero_iff (d M : Rat) : simSign d M = 0 ↔ M ≤ 0 ∨ d = 0 := by
  unfold simSign
  split_ifs with h1 h2 h3
  · exact ⟨fun _ => Or.inl h1, fun _ => rfl⟩
  · constructor
    · intro h; exact absurd h (by decide)
    · rintro (hM | hd)
      · exact absurd hM h1
      · linarith
  · constructor
    · intro h; exact absurd h (by decide)
    · rintro (hM | hd)
      · exact absurd hM h1
      · linarith
  · refine ⟨fun _ => Or.inr ?_, fun _ => rfl⟩
    linarith [not_lt.mp h2, not_lt.mp h3]

theorem simSign_cases (d M : Rat) :
    simSign d M = -1 ∨ simSign d M = 0 ∨ simSign d M = 1 := by
  unfold simSign
  split_ifs <;> simp

/-- Comparison of two positive `d/√M` values reduces to comparing the
cross-multiplied squares, a decidable rational comparison. -/
theorem div_sqrt_lt_div_sqrt (d1 M1 d2 M2 : Rat)
    (hM1 : 0 < M1) (hM2 : 0 < M2) (hd1 : 0 < d1) (hd2 : 0 < d2) :
    ((d1 : Real) / Real.sqrt (M1 : Real) < (d2 : Real) / Real.sqrt (M2 : Real)) ↔
      d1 ^ 2 * M2 < d2 ^ 2 * M1 := by
  have s1 : (0:Real) < Real.sqrt (M1 : Real) := Real.sqrt_pos.mpr (by exact_mod_cast hM1)
  have s2 : (0:Real) < Real.sqrt (M2 : Real) := Real.sqrt_pos.mpr (by exact_mod_cast hM2)
  have e1 : Real.sqrt (M1 : Real) ^ 2 = (M1 : Real) :=
    Real.sq_sqrt (by exact_mod_cast hM1.le)
  have e2 : Real.sqrt (M2 : Real) ^ 2 = (M2 : Real) :=
    Real.sq_sqrt (by exact_mod_cast hM2.le)
  rw [div_lt_div_iff s1 s2]
  constructor
  · intro h
    have hnn : (0:Real) ≤ (d1 : Real) * Real.sqrt (M2 : Real) :=
      mul_nonneg (by exact_mod_cast hd1.le) s2.le
    have hsq := mul_self_lt_mul_self hnn h
    rw [← pow_two, ← pow_two, mul_pow, mul_pow, e1, e2] at hsq
    exact_mod_cast hsq
  · intro h
    by_contra hc
    push_neg at hc
    have hnn : (0:Real) ≤ (d2 : Real) * Real.sqrt (M1 : Real) :=
      mul_nonneg (by exact_mod_cast hd2.le) s1.le
    have hsq := mul_self_le_mul_self hnn hc
    rw [← pow_two, ← pow_two, mul_pow, mul_pow, e1, e2] at hsq
    have hq : (d2 : Rat) ^ 2 * M1 ≤ d1 ^ 2 * M2 := by exact_mod_cast hsq
    linarith

/-- The negative-numerator counterpart of `div_sqrt_lt_div_sqrt`. -/
theorem div_sqrt_lt_div_sqrt_neg (d1 M1 d2 M2 : Rat)
    (hM1 : 0 < M1) (hM2 : 0 < M2) (hd1 : d1 < 0) (hd2 : d2 < 0) :
    ((d1 : Real) / Real.sqrt (M1 : Real) < (d2 : Real) / Real.sqrt (M2 : Real)) ↔
      d2 ^ 2 * M1 < d1 ^ 2 * M2 := by
  have key := div_sqrt_lt_div_sqrt (-d2) M2 (-d1) M1 hM2 hM1 (by linarith) (by linarith)
  rw [neg_sq, neg_sq] at key
  constructor
  · intro h
    apply key.mp
    push_cast
    rw [neg_div, neg_div]
    exact neg_lt_neg h
  · intro h
    have h3 := key.mpr h
    push_cast at h3
    rw [neg_div, neg_div] at h3
    linarith

/-- `simLT` decides the comparison of the represented real values. -/
theorem simLT_iff (p q : Rat × Rat) :
    simLT p q = true ↔ simValue p < simValue q := by
  obtain ⟨d1, M1⟩ := p
  obtain ⟨d2, M2⟩ := q
  rcases simSign_cases d1 M1 with h1 | h1 | h1 <;>
    rcases simSign_cases d2 M2 with h2 | h2 | h2
  · -- (-1, -1): both negative
    obtain ⟨hM1, hd1⟩ := (simSign_eq_negOne_iff d1 M1).mp h1
    obtain ⟨hM2, hd2⟩ := (simSign_eq_negOne_iff d2 M2).mp h2
    simp only [simLT, h1, h2]
    norm_num
    unfold simValue
    exact (div_sqrt_lt_div_sqrt_neg d1 M1 d2 M2 hM1 hM2 hd1 hd2).symm
  · -- (-1, 0)
    obtain ⟨hM1, hd1⟩ := (simSign_eq_negOne_iff d1 M1).mp h1
    have hv1 := simValue_neg d1 M1 hM1 hd1
    have hv2 := simValue_zero d2 M2 ((simSign_eq_zero_iff d2 M2).mp h2)
    simp only [simLT, h1, h2]
    norm_num
    linarith
  · -- (-1, 1)
    obtain ⟨hM1, hd1⟩ := (simSign_eq_negOne_iff d1 M1).mp h1
    obtain ⟨hM2, hd2⟩ := (simSign_eq_one_iff d2 M2).mp h2
    have hv1 := simValue_neg d1 M1 hM1 hd1
    have hv2 := simValue_pos d2 M2 hM2 hd2
    simp only [simLT, h1, h2]
    norm_num
    linarith
  · -- (0, -1)
    obtain ⟨hM2, hd2⟩ := (simSign_eq_negOne_iff d2 M2).mp h2
    have hv1 := simValue_zero d1 M1 ((simSign_eq_zero_iff d1 M1).mp h1)
    have hv2 := simValue_neg d2 M2 hM2 hd2
    simp only [simLT, h1, h2]
    norm_num
    linarith
  · -- (0, 0)
    have hv1 := simValue_zero d1 M1 ((simSign_eq_zero_iff d1 M1).mp h1)
    have hv2 := simValue_zero d2 M2 ((simSign_eq_zero_iff d2 M2).mp h2)
    simp only [simLT, h1, h2]
    norm_num
    linarith
  · -- (0, 1)
    obtain ⟨hM2, hd2⟩ := (simSign_eq_one_iff d2 M2).mp h2
    have hv1 := simValue_zero d1 M1 ((simSign_eq_zero_iff d1 M1).mp h1)
    have hv2 := simValue_pos d2 M2 hM2 hd2
    simp only [simLT, h1, h2]
    norm_num
    linarith
  · -- (1, -1)
    obtain ⟨hM1, hd1⟩ := (simSign_eq_one_iff d1 M1).mp h1
    obtain ⟨hM2, hd2⟩ := (simSign_eq_negOne_iff d2 M2).mp h2
    have hv1 := simValue_pos d1 M1 hM1 hd1
    have hv2 := simValue_neg d2 M2 hM2 hd2
    simp only [simLT, h1, h2]
    norm_num
    linarith
  · -- (1, 0)
    obtain ⟨hM1, hd1⟩ := (simSign_eq_one_iff d1 M1).mp h1
    have hv1 := simValue_pos d1 M1 hM1 hd1
    have hv2 := simValue_zero d2 M2 ((simSign_eq_zero_iff d2 M2).mp h2)
    simp only [simLT, h1, h2]
    norm_num
    linarith
  · -- (1, 1)
    obtain ⟨hM1, hd1⟩ := (simSign_eq_one_iff d1 M1).mp h1
    obtain ⟨hM2, hd2⟩ := (simSign_eq_one_iff d2 M2).mp h2
    simp only [simLT, h1, h2]
    norm_num
    unfold simValue
    exact (div_sqrt_lt_div_sqrt d1 M1 d2 M2 hM1 hM2 hd1 hd2).symm

theorem simEQ_iff (p q : Rat × Rat) :
    simEQ p q = true ↔ simValue p = simValue q := by
  unfold simEQ
  rw [Bool.and_eq_true, Bool.not_eq_true', Bool.not_eq_true']
  constructor
  · rintro ⟨h1, h2⟩
    have n1 : ¬ simValue p < simValue q := fun hc => by
      rw [← simLT_iff] at hc; rw [h1] at hc; exact Bool.false_ne_true hc
    have n2 : ¬ simValue q < simValue p := fun hc => by
      rw [← simLT_iff] at hc; rw [h2] at hc; exact Bool.false_ne_true hc
    linarith [le_of_not_lt n1, le_of_not_lt n2]
  · intro h
    constructor
    · rw [← Bool.not_eq_true, simLT_iff]
      simp [h]
    · rw [← Bool.not_eq_true, simLT_iff]
      simp [h]

/-! ## The chunker (`chunkText`, `src/backend/src/services/pdfService.js`)

`chunkText(text, chunkSize = 1500, overlap = 300, totalPages = 1)` walks the
text with a `while (start < text.length)` loop.  Strings are `List Char`,
positions are `Int` (JavaScript numbers holding integer values), and the
fractional guards (`chunkSize * 0.2`, …) are `Rat`.  The loop is embedded
with a fuel parameter (`none` = the loop did not finish — the source has no
other exit).  Regular-expression matching is uninterpreted: a `RegexOracle`
supplies the match positions and boolean test results; all the regex-free
string operations (`includes`, `lastIndexOf`, `slice`, `substring`, `trim`,
`toLowerCase`) are modelled concretely.
-/

/-- JavaScript strings as character lists. -/
abbrev Str := List Char

/-- `String.prototype.slice(a, b)`: negative arguments count from the end,
then both are clamped to `[0, length]`; empty result when `lo ≥ hi`. -/
def jsSlice (s : Str) (a b : Int) : Str :=
  let len : Int := s.length
  let lo := if a < 0 then max (len + a) 0 else min a len
  let hi := if b < 0 then max (len + b) 0 else min b len
  if lo < hi then (s.drop lo.toNat).take (hi - lo).toNat else []

/-- `String.prototype.substring(a, b)`: both arguments clamped to
`[0, length]`, then swapped if out of order. -/
def jsSubstring (s : Str) (a b : Int) : Str :=
  let len : Int := s.length
  let a' := min (max a 0) len
  let b' := min (max b 0) len
  let lo := min a' b'
  let hi := max a' b'
  (s.drop lo.toNat).take (hi - lo).toNat

/-- The characters removed by `String.prototype.trim` (ASCII subset). -/
def jsIsWhitespace (c : Char) : Bool :=
  c = ' ' || c = '\n' || c = '\t' || c = '\r' || c = '\x0b' || c = '\x0c'

/-- `String.prototype.trim`. -/
def jsTrim (s : Str) : Str :=
  ((s.dropWhile jsIsWhitespace).reverse.dropWhile jsIsWhitespace).reverse

/-- `String.prototype.includes` (no position argument). -/
def containsSub (hay needle : Str) : Bool :=
  hay.tails.any (fun t => needle.isPrefixOf t)

/-- `String.prototype.toLowerCase` (ASCII behaviour suffices here). -/
def toLowerStr (s : Str) : Str := s.map Char.toLower

/-- `String.prototype.lastIndexOf(needle, pos)`: the largest match start
index that is `≤ pos` (clamped to `[0, length]`), or `-1`. -/
def jsLastIndexOf (s needle : Str) (posArg : Int) : Int :=
  let pos := min (max posArg 0) (s.length : Int)
  match ((List.range (s.length + 1)).filter
      (fun (i : Nat) => decide (((i : Nat) : Int) ≤ pos) && needle.isPrefixOf (s.drop i))).getLast? with
  | some i => (i : Int)
  | none => -1

/-- The `financialKeywords` vocabulary of `chunkText`. -/
def financialKeywords : List Str :=
  ["balance", "transaction", "account", "statement", "payment", "deposit",
   "withdrawal", "credit", "debit", "transfer", "fee", "interest", "overdraft",
   "available balance", "current balance", "previous balance",
   "beginning balance", "ending balance", "account number", "routing number",
   "statement period", "transaction date", "description", "amount",
   "running balance", "merchant", "payee", "check number"].map String.data

/-- `financialKeywords.some(k => text.toLowerCase().includes(k.toLowerCase()))`. -/
def hasFinancialKeywords (text : Str) : Bool :=
  financialKeywords.any (fun k => containsSub (toLowerStr text) (toLowerStr k))

/-- Uninterpreted regular-expression matching.  The three `has*` fields are
the financial-document detectors; the three `*Match*` fields return, for a
search window, the list of match positions the `while (pattern.exec(...))`
loops iterate over (for the amount patterns, match end positions, because
the code adds `match[0].length`); the remaining fields are the advisory
content flags attached to every chunk. -/
structure RegexOracle where
  hasMonetaryAmounts : Str → Bool
  hasDatePatterns : Str → Bool
  hasAccountNumbers : Str → Bool
  dateMatchStarts : Str → List Nat
  amountMatchEnds : Str → List Nat
  transactionMatchStarts : Str → List Nat
  containsAmounts : Str → Bool
  containsDates : Str → Bool
  containsTransactions : Str → Bool
  containsAccountInfo : Str → Bool
  containsMerchantInfo : Str → Bool
  transactionCount : Str → Nat
  containsBalance : Str → Bool

/-- The all-negative oracle (no regex matches anywhere); used to evaluate
the model on concrete inputs on which the real regexes match nothing. -/
def trivOracle : RegexOracle where
  hasMonetaryAmounts := fun _ => false
  hasDatePatterns := fun _ => false
  hasAccountNumbers := fun _ => false
  dateMatchStarts := fun _ => []
  amountMatchEnds := fun _ => []
  transactionMatchStarts := fun _ => []
  containsAmounts := fun _ => false
  containsDates := fun _ => false
  containsTransactions := fun _ => false
  containsAccountInfo := fun _ => false
  containsMerchantInfo := fun _ => false
  transactionCount := fun _ => 0
  containsBalance := fun _ => false

/-- `isFinancialDoc = hasFinancialKeywords && (hasMonetaryAmounts ||
hasDatePatterns || hasAccountNumbers)`, with the substring windows of the
source. -/
def isFinancialDoc (O : RegexOracle) (text : Str) : Bool :=
  hasFinancialKeywords text &&
    (O.hasMonetaryAmounts (jsSubstring text 0 3000) ||
      O.hasDatePatterns (jsSubstring text 0 2000) ||
      O.hasAccountNumbers (jsSubstring text 0 2000))

/-- One chunk record as pushed by `chunkText`. -/
structure Chunk where
  text : Str
  startChar : Int
  endChar : Int
  estimatedPage : Int
  chunkIndex : Nat
  containsAmounts : Bool
  containsDates : Bool
  containsTransactions : Bool
  containsAccountInfo : Bool
  containsMerchantInfo : Bool
  isFinancialContent : Bool
  transactionCount : Nat
  containsBalance : Bool
deriving DecidableEq, Repr, Inhabited

/-- The financial-document break-point candidates: the three pattern-family
loops of the source, in code order, offsets and `0.2/0.3` window guards
applied exactly as written. -/
def financialBreakPoints (O : RegexOracle) (text : Str) (start endPos chunkSize : Int) :
    List Int :=
  let dateBase := max 0 (endPos - 600)
  let dates := ((O.dateMatchStarts (jsSubstring text dateBase (endPos + 200))).map
      (fun (m : Nat) => dateBase + (m : Int))).filter
      (fun (p : Int) => decide (((p : Int) : Rat) > (start : Rat) + (chunkSize : Rat) * (2/10)) &&
        decide (p < endPos))
  let amountBase := max 0 (endPos - 400)
  let amounts := ((O.amountMatchEnds (jsSubstring text amountBase (endPos + 200))).map
      (fun (m : Nat) => amountBase + (m : Int))).filter
      (fun (p : Int) => decide (((p : Int) : Rat) > (start : Rat) + (chunkSize : Rat) * (3/10)) &&
        decide (p < endPos))
  let transBase := max 0 (endPos - 500)
  let trans := ((O.transactionMatchStarts (jsSubstring text transBase (endPos + 100))).map
      (fun (m : Nat) => transBase + (m : Int))).filter
      (fun (p : Int) => decide (((p : Int) : Rat) > (start : Rat) + (chunkSize : Rat) * (2/10)) &&
        decide (p < endPos))
  dates ++ amounts ++ trans

/-- The standard break-point candidates (paragraph break, line break,
sentence end), pushed after the financial ones. -/
def standardBreakPoints (text : Str) (start endPos chunkSize : Int) : List Int :=
  let lastPeriod := jsLastIndexOf text ['.'] endPos
  let lastNewline := jsLastIndexOf text ['\n'] endPos
  let lastDoubleNewline := jsLastIndexOf text ['\n', '\n'] endPos
  (if decide ((lastDoubleNewline : Rat) > (start : Rat) + (chunkSize : Rat) * (3/10)) then
    [lastDoubleNewline + 2] else []) ++
  (if decide ((lastNewline : Rat) > (start : Rat) + (chunkSize : Rat) * (1/2)) then
    [lastNewline + 1] else []) ++
  (if decide ((lastPeriod : Rat) > (start : Rat) + (chunkSize : Rat) * (1/2)) then
    [lastPeriod + 1] else [])

/-- `breakPoints.sort((a,b) => |a-end| - |b-end|); end = breakPoints[0]`:
the first element (in push order, since the sort is stable) among those of
minimal distance to the nominal end. -/
def chooseBreak (endPos : Int) : List Int → Option Int
  | [] => none
  | b :: rest =>
      some (rest.foldl
        (fun best x => if (x - endPos).natAbs < (best - endPos).natAbs then x else best) b)

/-- `Math.max(500, text.length / Math.max(totalPages, 1))`. -/
def avgCharsPerPage (text : Str) (totalPages : Int) : Rat :=
  max (500 : Rat) ((text.length : Rat) / ((max totalPages 1 : Int) : Rat))

/-- `Math.max(1, Math.floor(pos / avg) + 1)`. -/
def pageFloorEstimate (pos avg : Rat) : Int :=
  max 1 (⌊pos / avg⌋ + 1)

/-- The enhanced page-estimation block of `chunkText` (start/middle/end
estimates, majority page for straddling chunks, final clamp to
`[1, totalPages]`). -/
def estimatePage (avg : Rat) (totalPages : Int) (startC endC : Int) : Int :=
  let cS : Rat := (startC : Rat)
  let cE : Rat := (endC : Rat)
  let cM : Rat := cS + (cE - cS) / 2
  let sPE := pageFloorEstimate cS avg
  let mPE := pageFloorEstimate cM avg
  let ePE := pageFloorEstimate cE avg
  let est :=
    if sPE ≠ ePE then
      let startPageEnd := (sPE : Rat) * avg
      let endPageStart := ((ePE : Rat) - 1) * avg
      let contentInStartPage := max 0 (min startPageEnd cE - cS)
      let contentInEndPage := max 0 (cE - max endPageStart cS)
      if contentInEndPage > contentInStartPage then ePE else sPE
    else mPE
  max 1 (min est totalPages)

/-- The chunk record pushed for a non-empty trimmed slice. -/
def mkChunk (O : RegexOracle) (isFin : Bool) (avg : Rat) (totalPages : Int)
    (chunkTxt : Str) (startC endC : Int) (idx : Nat) : Chunk where
  text := chunkTxt
  startChar := startC
  endChar := endC
  estimatedPage := estimatePage avg totalPages startC endC
  chunkIndex := idx
  containsAmounts := O.containsAmounts chunkTxt
  containsDates := O.containsDates chunkTxt
  containsTransactions := O.containsTransactions chunkTxt
  containsAccountInfo := O.containsAccountInfo chunkTxt
  containsMerchantInfo := O.containsMerchantInfo chunkTxt
  isFinancialContent := isFin
  transactionCount := O.transactionCount chunkTxt
  containsBalance := O.containsBalance chunkTxt

/-- The adjusted chunk end: nominal `start + chunkSize`, moved to the best
break point when the nominal end falls short of the text end. -/
def chunkEndPos (O : RegexOracle) (text : Str) (isFin : Bool)
    (chunkSize : Int) (start : Int) : Int :=
  let len : Int := text.length
  let end0 := start + chunkSize
  if end0 < len then
    let bps := (if isFin then financialBreakPoints O text start end0 chunkSize else []) ++
      standardBreakPoints text start end0 chunkSize
    match chooseBreak end0 bps with
    | some b => b
    | none => end0
  else end0

/-- One iteration of the `while (start < text.length)` loop: returns the
extended accumulator and the next `start` (`end - overlap`). -/
def chunkStep (O : RegexOracle) (text : Str) (isFin : Bool)
    (chunkSize overlap totalPages : Int) (avg : Rat) (start : Int)
    (acc : List Chunk) : List Chunk × Int :=
  let endPos := chunkEndPos O text isFin chunkSize start
  let chunkTxt := jsTrim (jsSlice text start endPos)
  let acc' :=
    if chunkTxt.length > 0 then
      acc ++ [mkChunk O isFin avg totalPages chunkTxt start endPos acc.length]
    else acc
  (acc', endPos - overlap)

/-- The chunking loop with fuel; `none` when the loop has not finished. -/
def chunkLoop (O : RegexOracle) (text : Str) (isFin : Bool)
    (chunkSize overlap totalPages : Int) (avg : Rat) :
    Nat → Int → List Chunk → Option (List Chunk)
  | 0, start, acc => if start < (text.length : Int) then none else some acc
  | fuel + 1, start, acc =>
      if start < (text.length : Int) then
        let p := chunkStep O text isFin chunkSize overlap totalPages avg start acc
        chunkLoop O text isFin chunkSize overlap totalPages avg fuel p.2 p.1
      else some acc

/-- `chunkText(text, chunkSize, overlap, totalPages)`.  A financial document
overrides the passed sizes with `2500 / 500` before the loop.  `none` models
the loop running forever. -/
def chunkText (O : RegexOracle) (fuel : Nat) (text : Str)
    (chunkSize overlap totalPages : Int) : Option (List Chunk) :=
  let isFin := isFinancialDoc O text
  let cs := if isFin then 2500 else chunkSize
  let ov := if isFin then 500 else overlap
  chunkLoop O text isFin cs ov totalPages (avgCharsPerPage text totalPages) fuel 0 []


/-! ## In-memory vector store (`src/backend/services/memoryVectorService.js`)

`MemoryVectorService` holds four parallel arrays (`documents`, `embeddings`,
`metadatas`, `ids`).  `vectorizeDocument` chunks the text with
`chunkText(text, 1000, 200)`, obtains one embedding per chunk from the
external gateway `generateEmbeddings` (modelled as the oracle `gen`), and
appends to all four arrays.  `searchSimilarChunks` linearly scans, filters by
document id, attaches cosine similarities, sorts descending (stably) and
takes the first `limit`.  `deleteDocument` splices out every matching index
and returns `true` unconditionally.
-/

/-- The metadata record built for each chunk by `vectorizeDocument`.
`extra` is the caller-supplied `...metadata` spread (filename, upload time,
…), which at every call site contains none of the fixed keys, so it cannot
override them and is kept opaque. -/
structure ChunkMetadata where
  document_id : String
  chunk_index : Nat
  chunk_text : Str
  page_number : Int
  start_char : Int
  end_char : Int
  extra : List (String × String)
deriving DecidableEq, Repr, Inhabited

/-- `this.memoryStore`: the four parallel arrays. -/
structure MemoryStore where
  documents : List Str
  embeddings : List (List Rat)
  metadatas : List ChunkMetadata
  ids : List String
deriving DecidableEq, Repr

/-- The freshly initialised store. -/
def emptyStore : MemoryStore :=
  { documents := [], embeddings := [], metadatas := [], ids := [] }

/-- The record id `` `${documentId}_chunk_${index}` ``. -/
def mkChunkId (documentId : String) (index : Nat) : String :=
  documentId ++ "_chunk_" ++ toString index

/-- The metadata object built for chunk `c` at position `index`:
`chunk_text` is the 100-character preview plus an ellipsis. -/
def chunkMetadataFor (documentId : String) (extra : List (String × String))
    (c : Chunk) (index : Nat) : ChunkMetadata where
  document_id := documentId
  chunk_index := index
  chunk_text := c.text.take 100 ++ "...".data
  page_number := c.estimatedPage
  start_char := c.startChar
  end_char := c.endChar
  extra := extra

/-- `chunkObjects.map((_, index) => mkChunkId ...)` with its running index. -/
def buildIds (documentId : String) : Nat → List Chunk → List String
  | _, [] => []
  | i, _ :: cs => mkChunkId documentId i :: buildIds documentId (i + 1) cs

/-- `chunkObjects.map((chunkObj, index) => metadata-object)` with its
running index. -/
def buildMetas (documentId : String) (extra : List (String × String)) :
    Nat → List Chunk → List ChunkMetadata
  | _, [] => []
  | i, c :: cs => chunkMetadataFor documentId extra c i :: buildMetas documentId extra (i + 1) cs

/-- The four `push(...)` calls of `vectorizeDocument` (the store mutation). -/
def vectorizeStore (documentId : String) (extra : List (String × String))
    (chunkObjects : List Chunk) (embeddings : List (List Rat)) (s : MemoryStore) :
    MemoryStore where
  ids := s.ids ++ buildIds documentId 0 chunkObjects
  embeddings := s.embeddings ++ embeddings
  documents := s.documents ++ chunkObjects.map (·.text)
  metadatas := s.metadatas ++ buildMetas documentId extra 0 chunkObjects

/-- `vectorizeDocument(documentId, text, metadata)`: chunk with
`chunkText(text, 1000, 200)`, throw on zero chunks, embed every chunk text
through the gateway oracle `gen`, append everything.  `none` models the call
never returning (chunkText looping); `Except.error` models a thrown error;
`Except.ok` carries the new store and the chunk count of the success
payload. -/
def vectorizeDocument (O : RegexOracle) (gen : List Str → List (List Rat)) (fuel : Nat)
    (documentId : String) (text : Str) (extra : List (String × String))
    (s : MemoryStore) : Option (Except String (MemoryStore × Nat)) :=
  match chunkText O fuel text 1000 200 1 with
  | none => none
  | some chunkObjects =>
      if chunkObjects.length = 0 then
        some (Except.error "No text chunks generated from document")
      else
        let chunks := chunkObjects.map (·.text)
        let embeddings := gen chunks
        some (Except.ok (vectorizeStore documentId extra chunkObjects embeddings s,
          chunkObjects.length))

/-- One formatted search result; `simPair` represents the float `similarity`
field exactly (`simValue simPair` is the cosine similarity). -/
structure SearchResult where
  content : Str
  simPair : Rat × Rat
  metadata : ChunkMetadata
  id : String
deriving DecidableEq, Repr

/-- Positionwise tuple of four lists (the loop index `i` ranging over the
parallel arrays; on well-formed stores all four have equal length). -/
def zip4 {a b c d : Type} : List a → List b → List c → List d → List (a × b × c × d)
  | x :: xs, y :: ys, z :: zs, w :: ws => (x, y, z, w) :: zip4 xs ys zs ws
  | _, _, _, _ => []

/-- The indexed view of the store scanned by `searchSimilarChunks`. -/
def storeRecords (s : MemoryStore) : List (List Rat × ChunkMetadata × Str × String) :=
  zip4 s.embeddings s.metadatas s.documents s.ids

/-- The result object pushed for record `r` against `queryEmbedding`:
its similarity is `cosineSimilarity queryEmbedding r.embedding`,
represented by the pair `(dot, Σq²·Σe²)`. -/
def mkSearchResult (queryEmbedding : List Rat)
    (r : List Rat × ChunkMetadata × Str × String) : SearchResult where
  content := r.2.2.1
  simPair := (dotProduct queryEmbedding r.1, sumSquares queryEmbedding * sumSquares r.1)
  metadata := r.2.1
  id := r.2.2.2

/-- The `results` array before sorting: scan all records, skip those failing
the optional `documentId` filter (`if (documentId && ... !== documentId)
continue`), in store order. -/
def candidateResults (queryEmbedding : List Rat) (documentId : Option String)
    (s : MemoryStore) : List SearchResult :=
  (storeRecords s).filterMap (fun r =>
    if documentId.all (fun docId => r.2.1.document_id == docId) then
      some (mkSearchResult queryEmbedding r)
    else none)

/-- `(a, b) => b.similarity - a.similarity` orders strictly by smaller
similarity; the comparison is decided on the exact representation. -/
def resultLT (a b : SearchResult) : Bool := simLT a.simPair b.simPair

/-- `results.sort((a, b) => b.similarity - a.similarity)`: stable descending
sort. -/
def sortResults (l : List SearchResult) : List SearchResult :=
  stableSortDesc resultLT l

/-- `searchSimilarChunks(query, documentId, limit)`.  The gateway call
`generateEmbeddings([query])[0]` is the oracle `gen`. -/
def searchSimilarChunks (gen : Str → List Rat) (query : Str)
    (documentId : Option String) (limit : Nat) (s : MemoryStore) : List SearchResult :=
  (sortResults (candidateResults (gen query) documentId s)).take limit

/-- `deleteDocument(documentId)`: collect matching indices, splice them out
of all four arrays in reverse order, `return true` (unconditionally). -/
def deleteDocument (documentId : String) (s : MemoryStore) : Bool × MemoryStore :=
  let indicesToRemove := matchIdx (fun m => m.document_id == documentId) s.metadatas
  (true,
    { ids := spliceAllDesc s.ids indicesToRemove
      embeddings := spliceAllDesc s.embeddings indicesToRemove
      documents := spliceAllDesc s.documents indicesToRemove
      metadatas := spliceAllDesc s.metadatas indicesToRemove })

/-- `getDocumentStats(documentId)`: count of matching records and the first
matching metadata (`none` models the `{}` fallback). -/
structure DocStats where
  documentId : String
  chunkCount : Nat
  metadata : Option ChunkMetadata
deriving DecidableEq, Repr

def getDocumentStats (documentId : String) (s : MemoryStore) : DocStats where
  documentId := documentId
  chunkCount := s.metadatas.countP (fun m => m.document_id == documentId)
  metadata := s.metadatas.find? (fun m => m.document_id == documentId)

/-! ### Record-list refinement

Every store reachable by `vectorizeDocument` / `deleteDocument` from the
empty store is the projection of a single list of records, one per pushed
chunk; this is the formal content of "the four parallel arrays stay aligned".
-/

/-- One aligned record (one index of the four parallel arrays). -/
structure VecRecord where
  id : String
  embedding : List Rat
  document : Str
  metadata : ChunkMetadata
deriving DecidableEq, Repr

/-- A store given by columnwise projection of a record list. -/
def projectStore (rs : List VecRecord) : MemoryStore where
  documents := rs.map (·.document)
  embeddings := rs.map (·.embedding)
  metadatas := rs.map (·.metadata)
  ids := rs.map (·.id)

/-- The records appended by one `vectorizeDocument` call. -/
def buildRecords (documentId : String) (extra : List (String × String)) :
    Nat → List Chunk → List (List Rat) → List VecRecord
  | _, [], _ => []
  | _, _ :: _, [] => []
  | i, c :: cs, e :: es =>
      { id := mkChunkId documentId i, embedding := e, document := c.text
        metadata := chunkMetadataFor documentId extra c i } ::
        buildRecords documentId extra (i + 1) cs es

/-- The entries of one record originate from a single chunk of a single
document: the id is formed from its own metadata's `document_id` and
`chunk_index`, and the metadata's text preview is the preview of its own
document text. -/
def CoherentRecord (r : VecRecord) : Prop :=
  r.id = mkChunkId r.metadata.document_id r.metadata.chunk_index ∧
  r.metadata.chunk_text = r.document.take 100 ++ "...".data

theorem buildRecords_map_id (documentId : String) (extra : List (String × String)) :
    ∀ (i : Nat) (cs : List Chunk) (es : List (List Rat)), es.length = cs.length →
      (buildRecords documentId extra i cs es).map (·.id) = buildIds documentId i cs := by
  intro i cs
  induction cs generalizing i with
  | nil => intro es h; cases es <;> simp [buildRecords, buildIds] at *
  | cons c cs ih =>
      intro es h
      cases es with
      | nil => simp at h
      | cons e es =>
          simp only [buildRecords, buildIds, List.map_cons, List.cons.injEq]
          exact ⟨trivial, ih (i + 1) es (by simpa using h)⟩

theorem buildRecords_map_embedding (documentId : String) (extra : List (String × String)) :
    ∀ (i : Nat) (cs : List Chunk) (es : List (List Rat)), es.length = cs.length →
      (buildRecords documentId extra i cs es).map (·.embedding) = es := by
  intro i cs
  induction cs generalizing i with
  | nil => intro es h; cases es <;> simp [buildRecords] at *
  | cons c cs ih =>
      intro es h
      cases es with
      | nil => simp at h
      | cons e es =>
          simp only [buildRecords, List.map_cons, List.cons.injEq]
          exact ⟨trivial, ih (i + 1) es (by simpa using h)⟩

theorem buildRecords_map_document (documentId : String) (extra : List (String × String)) :
    ∀ (i : Nat) (cs : List Chunk) (es : List (List Rat)), es.length = cs.length →
      (buildRecords documentId extra i cs es).map (·.document) = cs.map (·.text) := by
  intro i cs
  induction cs generalizing i with
  | nil => intro es h; cases es <;> simp [buildRecords] at *
  | cons c cs ih =>
      intro es h
      cases es with
      | nil => simp at h
      | cons e es =>
          simp only [buildRecords, List.map_cons, List.cons.injEq]
          exact ⟨trivial, ih (i + 1) es (by simpa using h)⟩

theorem buildRecords_map_metadata (documentId : String) (extra : List (String × String)) :
    ∀ (i : Nat) (cs : List Chunk) (es : List (List Rat)), es.length = cs.length →
      (buildRecords documentId extra i cs es).map (·.metadata) =
        buildMetas documentId extra i cs := by
  intro i cs
  induction cs generalizing i with
  | nil => intro es h; cases es <;> simp [buildRecords, buildMetas] at *
  | cons c cs ih =>
      intro es h
      cases es with
      | nil => simp at h
      | cons e es =>
          simp only [buildRecords, buildMetas, List.map_cons, List.cons.injEq]
          exact ⟨trivial, ih (i + 1) es (by simpa using h)⟩

theorem buildRecords_coherent (documentId : String) (extra : List (String × String)) :
    ∀ (i : Nat) (cs : List Chunk) (es : List (List Rat)),
      ∀ r ∈ buildRecords documentId extra i cs es, CoherentRecord r := by
  intro i cs
  induction cs generalizing i with
  | nil => intro es r hr; simp [buildRecords] at hr
  | cons c cs ih =>
      intro es r hr
      cases es with
      | nil => simp [buildRecords] at hr
      | cons e es =>
          rcases List.mem_cons.mp hr with rfl | hr
          · exact ⟨rfl, rfl⟩
          · exact ih (i + 1) es r hr

/-- On a projected store, `vectorizeStore` appends the built records,
provided the gateway returned one embedding per chunk. -/
theorem vectorizeStore_project (documentId : String) (extra : List (String × String))
    (chunkObjects : List Chunk) (embeddings : List (List Rat)) (rs : List VecRecord)
    (hlen : embeddings.length = chunkObjects.length) :
    vectorizeStore documentId extra chunkObjects embeddings (projectStore rs) =
      projectStore (rs ++ buildRecords documentId extra 0 chunkObjects embeddings) := by
  unfold vectorizeStore projectStore
  simp only [List.map_append]
  rw [buildRecords_map_id documentId extra 0 chunkObjects embeddings hlen,
    buildRecords_map_embedding documentId extra 0 chunkObjects embeddings hlen,
    buildRecords_map_document documentId extra 0 chunkObjects embeddings hlen,
    buildRecords_map_metadata documentId extra 0 chunkObjects embeddings hlen]

/-- On a projected store, `deleteDocument` filters the record list. -/
theorem deleteDocument_project (documentId : String) (rs : List VecRecord) :
    deleteDocument documentId (projectStore rs) =
      (true, projectStore (rs.filter (fun r => !(r.metadata.document_id == documentId)))) := by
  unfold deleteDocument projectStore
  simp only [matchIdx_map, spliceAllDesc_matchIdx_map]



/-! ### Operation traces over the store -/

/-- The two store-mutating operations, each carrying its external-world
parameters (chunker fuel, regex oracle, embedding gateway). -/
inductive StoreOp where
  | vectorize (documentId : String) (text : Str) (extra : List (String × String))
      (O : RegexOracle) (gen : List Str → List (List Rat)) (fuel : Nat)
  | delete (documentId : String)

/-- Effect of one operation on the store.  A thrown error or a diverging
`chunkText` leaves the store untouched (the pushes come last in the source). -/
def applyStoreOp (s : MemoryStore) : StoreOp → MemoryStore
  | .vectorize documentId text extra O gen fuel =>
      match vectorizeDocument O gen fuel documentId text extra s with
      | some (Except.ok (s2, _)) => s2
      | _ => s
  | .delete documentId => (deleteDocument documentId s).2

def runStoreOps (ops : List StoreOp) (s : MemoryStore) : MemoryStore :=
  ops.foldl applyStoreOp s

/-- The embedding-gateway contract of the specification: `embed` returns one
vector per input text.  `deleteDocument` needs no assumption. -/
def GoodStoreOp : StoreOp → Prop
  | .vectorize _ _ _ _ gen _ => ∀ cs, (gen cs).length = cs.length
  | .delete _ => True

/-- Whether a `vectorizeDocument` outcome is a normal (non-thrown,
terminating) success. -/
def isOkResult : Option (Except String (MemoryStore × Nat)) → Bool
  | some (Except.ok _) => true
  | _ => false

theorem mem_zip4_proj {a b c d : Type} :
    ∀ (as : List a) (bs : List b) (cs : List c) (ds : List d) (r : a × b × c × d),
      r ∈ zip4 as bs cs ds → r.2.1 ∈ bs := by
  intro as
  induction as with
  | nil => intro bs cs ds r hr; simp [zip4] at hr
  | cons x xs ih =>
      intro bs cs ds r hr
      cases bs with
      | nil => simp [zip4] at hr
      | cons y ys =>
          cases cs with
          | nil => simp [zip4] at hr
          | cons z zs =>
              cases ds with
              | nil => simp [zip4] at hr
              | cons w ws =>
                  rcases List.mem_cons.mp hr with rfl | hr
                  · exact List.mem_cons_self _ _
                  · exact List.mem_cons_of_mem _ (ih ys zs ws r hr)

/-- After deleting a document, its metadata records are gone. -/
theorem deleteDocument_metadatas (documentId : String) (s : MemoryStore) :
    (deleteDocument documentId s).2.metadatas =
      s.metadatas.filter (fun m => !(m.document_id == documentId)) := by
  unfold deleteDocument
  exact spliceAllDesc_matchIdx _ _

/-- A query filtered to a deleted document finds no candidates. -/
theorem candidateResults_after_delete (documentId : String) (s : MemoryStore)
    (queryEmbedding : List Rat) :
    candidateResults queryEmbedding (some documentId) (deleteDocument documentId s).2 = [] := by
  unfold candidateResults
  rw [List.filterMap_eq_nil]
  intro r hr
  have hmem : r.2.1 ∈ (deleteDocument documentId s).2.metadatas :=
    mem_zip4_proj _ _ _ _ r hr
  rw [deleteDocument_metadatas] at hmem
  have hne := (List.mem_filter.mp hmem).2
  simp only [Option.all_some]
  rw [if_neg]
  simp only [Bool.not_eq_true'] at hne
  simp [hne]

theorem getDocumentStats_after_delete (documentId : String) (s : MemoryStore) :
    (getDocumentStats documentId (deleteDocument documentId s).2).chunkCount = 0 := by
  unfold getDocumentStats
  simp only
  rw [deleteDocument_metadatas, List.countP_eq_zero]
  intro m hm
  have hne := (List.mem_filter.mp hm).2
  simp only [Bool.not_eq_true'] at hne
  simp [hne]

/-- One operation applied to a projected store yields a projected store with
coherent records. -/
theorem applyStoreOp_project (op : StoreOp) (rs : List VecRecord)
    (hco : ∀ r ∈ rs, CoherentRecord r) (hop : GoodStoreOp op) :
    ∃ rs1, applyStoreOp (projectStore rs) op = projectStore rs1 ∧
      ∀ r ∈ rs1, CoherentRecord r := by
  cases op with
  | delete documentId =>
      refine ⟨rs.filter (fun r => !(r.metadata.document_id == documentId)), ?_, ?_⟩
      · show (deleteDocument documentId (projectStore rs)).2 = _
        rw [deleteDocument_project]
      · intro r hr
        exact hco r (List.mem_of_mem_filter hr)
  | vectorize documentId text extra O gen fuel =>
      cases hct : chunkText O fuel text 1000 200 1 with
      | none =>
          refine ⟨rs, ?_, hco⟩
          have hv : vectorizeDocument O gen fuel documentId text extra (projectStore rs)
              = none := by
            unfold vectorizeDocument
            rw [hct]
          simp only [applyStoreOp, hv]
      | some chunkObjects =>
          by_cases hz : chunkObjects.length = 0
          · refine ⟨rs, ?_, hco⟩
            have hv : vectorizeDocument O gen fuel documentId text extra (projectStore rs)
                = some (Except.error "No text chunks generated from document") := by
              unfold vectorizeDocument
              rw [hct]
              simp [hz]
            simp only [applyStoreOp, hv]
          · have hlen : (gen (chunkObjects.map (·.text))).length = chunkObjects.length := by
              have := hop (chunkObjects.map (·.text))
              simpa using this
            refine ⟨rs ++ buildRecords documentId extra 0 chunkObjects
              (gen (chunkObjects.map (·.text))), ?_, ?_⟩
            · have hv : vectorizeDocument O gen fuel documentId text extra (projectStore rs)
                  = some (Except.ok
                      (vectorizeStore documentId extra chunkObjects
                        (gen (chunkObjects.map (·.text))) (projectStore rs),
                        chunkObjects.length)) := by
                unfold vectorizeDocument
                rw [hct]
                simp [hz]
              simp only [applyStoreOp, hv]
              exact vectorizeStore_project documentId extra chunkObjects _ rs hlen
            · intro r hr
              rcases List.mem_append.mp hr with hr | hr
              · exact hco r hr
              · exact buildRecords_coherent documentId extra 0 _ _ r hr

/-- The store-trace invariant: reachable stores are projections of coherent
record lists. -/
theorem runStoreOps_project :
    ∀ (ops : List StoreOp) (rs : List VecRecord),
      (∀ r ∈ rs, CoherentRecord r) → (∀ op ∈ ops, GoodStoreOp op) →
      ∃ rs2, runStoreOps ops (projectStore rs) = projectStore rs2 ∧
        ∀ r ∈ rs2, CoherentRecord r := by
  intro ops
  induction ops with
  | nil => intro rs hco hgood; exact ⟨rs, rfl, hco⟩
  | cons op rest ih =>
      intro rs hco hgood
      obtain ⟨rs1, hstep, hco1⟩ := applyStoreOp_project op rs hco
        (hgood op (List.mem_cons_self _ _))
      obtain ⟨rs2, hrun, hco2⟩ := ih rs1 hco1
        (fun o ho => hgood o (List.mem_cons_of_mem _ ho))
      refine ⟨rs2, ?_, hco2⟩
      show (op :: rest).foldl applyStoreOp (projectStore rs) = _
      rw [List.foldl_cons, hstep]
      exact hrun


/-! ### Chunker lemmas -/

/-- The final clamp `Math.min(..., totalPages)` / `Math.max(1, ...)` keeps
every estimate inside `[1, totalPages]` whenever `totalPages ≥ 1`. -/
theorem estimatePage_bounds (avg : Rat) (tp startC endC : Int) (htp : 1 ≤ tp) :
    1 ≤ estimatePage avg tp startC endC ∧ estimatePage avg tp startC endC ≤ tp := by
  unfold estimatePage
  exact ⟨le_max_left _ _, max_le htp (min_le_right _ _)⟩

/-- One loop iteration either keeps the accumulator or appends one chunk
built by `mkChunk` (so with a clamped page estimate). -/
theorem chunkStep_fst_cases (O : RegexOracle) (text : Str) (isFin : Bool)
    (cs ov tp : Int) (avg : Rat) (start : Int) (acc : List Chunk) :
    (chunkStep O text isFin cs ov tp avg start acc).1 = acc ∨
    ∃ t e2, (chunkStep O text isFin cs ov tp avg start acc).1 =
      acc ++ [mkChunk O isFin avg tp t start e2 acc.length] := by
  unfold chunkStep
  dsimp only
  split
  · right
    exact ⟨_, _, rfl⟩
  · left
    rfl

/-- Loop invariant: all accumulated chunks have in-bounds page estimates. -/
theorem chunkLoop_pages (O : RegexOracle) (text : Str) (isFin : Bool)
    (cs ov tp : Int) (avg : Rat) (htp : 1 ≤ tp) :
    ∀ (fuel : Nat) (start : Int) (acc chunks : List Chunk),
      (∀ c ∈ acc, 1 ≤ c.estimatedPage ∧ c.estimatedPage ≤ tp) →
      chunkLoop O text isFin cs ov tp avg fuel start acc = some chunks →
      ∀ c ∈ chunks, 1 ≤ c.estimatedPage ∧ c.estimatedPage ≤ tp := by
  intro fuel
  induction fuel with
  | zero =>
      intro start acc chunks hacc h
      unfold chunkLoop at h
      split at h
      · exact absurd h (by simp)
      · cases h
        exact hacc
  | succ n ih =>
      intro start acc chunks hacc h
      rw [chunkLoop] at h
      split at h
      · refine ih _ _ chunks ?_ h
        intro c hc
        rcases chunkStep_fst_cases O text isFin cs ov tp avg start acc with heq | ⟨t, e2, heq⟩
        · rw [heq] at hc
          exact hacc c hc
        · rw [heq] at hc
          rcases List.mem_append.mp hc with hc | hc
          · exact hacc c hc
          · rcases List.mem_singleton.mp hc with rfl
            exact estimatePage_bounds avg tp start e2 htp
      · cases h
        exact hacc

/-- `chunkText` clamps every produced page estimate into `[1, totalPages]`. -/
theorem chunkText_page_bounds (O : RegexOracle) (fuel : Nat) (text : Str)
    (csz ov tp : Int) (chunks : List Chunk) (htp : 1 ≤ tp)
    (h : chunkText O fuel text csz ov tp = some chunks) :
    ∀ c ∈ chunks, 1 ≤ c.estimatedPage ∧ c.estimatedPage ≤ tp := by
  unfold chunkText at h
  exact chunkLoop_pages O text _ _ _ tp _ htp fuel 0 [] chunks
    (by intro c hc; exact absurd hc (List.not_mem_nil c)) h

/-- The text `"aaaa"` of the divergence counterexample. -/
def aaaaStr : Str := ['a', 'a', 'a', 'a']

/-- On `"aaaa"` with `chunkSize = 2` no standard break point qualifies
(no period or newline exists). -/
theorem standardBreakPoints_aaaa : standardBreakPoints aaaaStr 0 2 2 = [] := by
  unfold standardBreakPoints
  have j1 : jsLastIndexOf aaaaStr ['.'] 2 = -1 := by decide
  have j2 : jsLastIndexOf aaaaStr ['\n'] 2 = -1 := by decide
  have j3 : jsLastIndexOf aaaaStr ['\n', '\n'] 2 = -1 := by decide
  rw [j1, j2, j3]
  have g1 : (decide (((-1 : Int) : Rat) > ((0 : Int) : Rat) + ((2 : Int) : Rat) * (3/10)))
      = false := decide_eq_false (by push_cast; norm_num)
  have g2 : (decide (((-1 : Int) : Rat) > ((0 : Int) : Rat) + ((2 : Int) : Rat) * (1/2)))
      = false := decide_eq_false (by push_cast; norm_num)
  simp only [g1, g2]
  rfl

/-- So the chunk end stays at the nominal `0 + 2`. -/
theorem chunkEndPos_aaaa (O : RegexOracle) : chunkEndPos O aaaaStr false 2 0 = 2 := by
  unfold chunkEndPos
  have h02 : ((0 : Int) + 2) = 2 := by decide
  simp only [h02, standardBreakPoints_aaaa]
  rfl

/-- With `chunkSize = overlap = 2` on the four-character non-financial text
`"aaaa"`, one iteration produces the chunk `"aa"` and puts `start` back to
`0 = 2 - 2`: the loop makes no progress. -/
theorem chunkStep_aaaa (O : RegexOracle) (acc : List Chunk) :
    chunkStep O aaaaStr false 2 2 1 (avgCharsPerPage aaaaStr 1) 0 acc =
      (acc ++ [mkChunk O false (avgCharsPerPage aaaaStr 1) 1 "aa".data 0 2 acc.length],
        0) := by
  unfold chunkStep
  rw [chunkEndPos_aaaa O]
  rfl

/-- Hence the loop on that input returns for no amount of fuel. -/
theorem chunkLoop_aaaa (O : RegexOracle) :
    ∀ (fuel : Nat) (acc : List Chunk),
      chunkLoop O aaaaStr false 2 2 1 (avgCharsPerPage aaaaStr 1) fuel 0 acc =
        none := by
  intro fuel
  induction fuel with
  | zero => intro acc; rfl
  | succ n ih =>
      intro acc
      show chunkLoop O aaaaStr false 2 2 1 (avgCharsPerPage aaaaStr 1) n
          (chunkStep O aaaaStr false 2 2 1 (avgCharsPerPage aaaaStr 1) 0 acc).2
          (chunkStep O aaaaStr false 2 2 1 (avgCharsPerPage aaaaStr 1) 0 acc).1 =
        none
      rw [chunkStep_aaaa O acc]
      exact ih _


/-! ## Job queue (`src/backend/src/services/jobQueue.js`)

`JobQueue` keeps a `Map` of jobs (association list in insertion order), a
`Set` of currently-processing job ids, and `maxConcurrent = 2`.  Job ids
(`uuidv4()` in the source) are modelled by a fresh counter — only their
uniqueness is observable.  Timestamps (`new Date()`) are modelled by a
logical clock ticking once per operation.  The asynchronous job body
(`processPdfJob`) is not part of the queue's state machine: its
`updateProgress` / `completeJob` / `failJob` calls appear as separate
operations of the traces.  The tracker side effects of the `pdf_processing`
branches are applied to an embedded `DocStatusState`. -/

/-- The four job statuses. -/
inductive JobStatus where
  | queued
  | processing
  | completed
  | failed
deriving DecidableEq, Repr, Inhabited

/-- One job record (the object built by `addJob`).  The `jobData` spread is
modelled by the three fields the queue itself reads (`type`, `documentId`,
`filename`); the remaining payload is not observed. -/
structure Job where
  type : String
  documentId : String
  filename : String
  status : JobStatus
  progress : Rat
  statusMessage : Option String
  createdAt : Nat
  startedAt : Option Nat
  completedAt : Option Nat
  error : Option String
  result : Option String
deriving DecidableEq, Repr, Inhabited

/-- The queue state. -/
structure QueueState where
  jobs : List (Nat × Job)
  processing : List Nat
  maxConcurrent : Nat
  nextId : Nat
  now : Nat
  tracker : DocStatusState
deriving DecidableEq, Repr

/-- The singleton's initial state (`maxConcurrent = 2`). -/
def initQueue : QueueState where
  jobs := []
  processing := []
  maxConcurrent := 2
  nextId := 0
  now := 0
  tracker := { statuses := [] }

/-- `getJob(jobId)`: `Map.get`. -/
def getJob (jobId : Nat) (s : QueueState) : Option Job :=
  (s.jobs.find? (fun p => p.1 == jobId)).map (·.2)

/-- In-place mutation of the job stored under a key (`Map` values are
mutated through the reference `this.jobs.get(jobId)`). -/
def updateJobEntry (jobId : Nat) (f : Job → Job) (jobs : List (Nat × Job)) :
    List (Nat × Job) :=
  jobs.map (fun p => if p.1 == jobId then (p.1, f p.2) else p)

/-- `job.type === 'pdf_processing' && job.documentId` (string truthiness:
the tracker propagation fires only for a non-empty document id). -/
def pdfJobGuard (j : Job) : Bool :=
  j.type == "pdf_processing" && !(j.documentId == "")

/-- The enqueue part of `addJob` (fresh id, status `queued`, `progress: 0`). -/
def newJobRecord (type documentId filename : String) (now : Nat) : Job :=
  { type := type, documentId := documentId, filename := filename
    status := JobStatus.queued, progress := 0, statusMessage := none
    createdAt := now, startedAt := none, completedAt := none
    error := none, result := none }

def addJobRecord (type documentId filename : String) (s : QueueState) : QueueState :=
  { s with
    jobs := s.jobs ++ [(s.nextId, newJobRecord type documentId filename s.now)]
    nextId := s.nextId + 1 }

/-- The synchronous prefix of `startJob`: no-op unless the job exists with
status `queued`; otherwise mark it processing, record `startedAt`, add the
id to the processing set. -/
def startJob (jobId : Nat) (s : QueueState) : QueueState :=
  match getJob jobId s with
  | none => s
  | some j =>
      if j.status = JobStatus.queued then
        { s with
          jobs := updateJobEntry jobId
            (fun j0 => { j0 with status := JobStatus.processing, startedAt := some s.now })
            s.jobs
          processing := if s.processing.contains jobId then s.processing
            else s.processing ++ [jobId] }
      else s

/-- `processNext()`: no-op at capacity, else start the first queued job. -/
def processNext (s : QueueState) : QueueState :=
  if s.processing.length ≥ s.maxConcurrent then s
  else
    match s.jobs.find? (fun p => p.2.status == JobStatus.queued) with
    | none => s
    | some p => startJob p.1 s

/-- `addJob(jobData)`: enqueue, then try to process immediately. -/
def addJob (type documentId filename : String) (s : QueueState) : QueueState :=
  processNext (addJobRecord type documentId filename s)

/-- `updateProgress(jobId, progress, message)`: clamp into `[0, 100]`, set
the message when one is given, propagate to the document tracker for pdf
jobs.  No status check. -/
def updateProgressJob (jobId : Nat) (progress : Rat) (message : Option String)
    (s : QueueState) : QueueState :=
  match getJob jobId s with
  | none => s
  | some j =>
      let newProgress := min 100 (max 0 progress)
      let s1 := { s with
        jobs := updateJobEntry jobId
          (fun j0 => { j0 with
            progress := newProgress,
            statusMessage := (match message with | some m => some m | none => j0.statusMessage) })
          s.jobs }
      if pdfJobGuard j then
        { s1 with tracker := updateProgressDoc j.documentId newProgress message s1.tracker }
      else s1

/-- `completeJob(jobId, result)`: set terminal fields, drop the id from the
processing set, mark the document completed, process the next job.  No
status check. -/
def completeJob (jobId : Nat) (result : String) (s : QueueState) : QueueState :=
  match getJob jobId s with
  | none => s
  | some j =>
      let s1 := { s with
        jobs := updateJobEntry jobId
          (fun j0 => { j0 with
            status := JobStatus.completed, progress := 100,
            completedAt := some s.now, result := some result })
          s.jobs,
        processing := s.processing.filter (fun y => !(y == jobId)) }
      let s2 := if pdfJobGuard j then
        { s1 with tracker := markCompleted j.documentId s1.tracker } else s1
      processNext s2

/-- `failJob(jobId, error)`: set terminal fields (progress untouched), drop
the id from the processing set, mark the document errored, process the next
job.  No status check. -/
def failJob (jobId : Nat) (error : String) (s : QueueState) : QueueState :=
  match getJob jobId s with
  | none => s
  | some j =>
      let s1 := { s with
        jobs := updateJobEntry jobId
          (fun j0 => { j0 with
            status := JobStatus.failed,
            completedAt := some s.now, error := some error })
          s.jobs,
        processing := s.processing.filter (fun y => !(y == jobId)) }
      let s2 := if pdfJobGuard j then
        { s1 with tracker := markError j.documentId error s1.tracker } else s1
      processNext s2

/-- The queue operations of a trace.  `start` is the direct method call (in
the source `processNext` is its only caller, but the method is public). -/
inductive QueueOp where
  | add (type documentId filename : String)
  | start (jobId : Nat)
  | update (jobId : Nat) (progress : Rat) (message : Option String)
  | complete (jobId : Nat) (result : String)
  | fail (jobId : Nat) (error : String)
  | next
deriving DecidableEq, Repr

/-- Apply one operation (the logical clock ticks first). -/
def applyQueueOp (s : QueueState) : QueueOp → QueueState
  | .add t d f => addJob t d f { s with now := s.now + 1 }
  | .start jobId => startJob jobId { s with now := s.now + 1 }
  | .update jobId p m => updateProgressJob jobId p m { s with now := s.now + 1 }
  | .complete jobId r => completeJob jobId r { s with now := s.now + 1 }
  | .fail jobId e => failJob jobId e { s with now := s.now + 1 }
  | .next => processNext { s with now := s.now + 1 }

def runQueueOps (ops : List QueueOp) (s : QueueState) : QueueState :=
  ops.foldl applyQueueOp s

/-- The number of jobs whose status is `processing`. -/
def processingCount (s : QueueState) : Nat :=
  s.jobs.countP (fun p => p.2.status == JobStatus.processing)


/-! ### Queue lemmas -/

/-- `completed` and `failed` are the terminal statuses. -/
def TerminalJob (j : Job) : Prop :=
  j.status = JobStatus.completed ∨ j.status = JobStatus.failed

/-- Whether an operation is an `updateProgress`/`completeJob`/`failJob`
call aimed at the given job. -/
def targetsJob (op : QueueOp) (jobId : Nat) : Bool :=
  match op with
  | .update j _ _ => j == jobId
  | .complete j _ => j == jobId
  | .fail j _ => j == jobId
  | _ => false

/-- Whether an operation is a direct `startJob` call. -/
def isStartOp : QueueOp → Bool
  | .start _ => true
  | _ => false

theorem find?_key_updateJobEntry_ne (jobId jobId2 : Nat) (f : Job → Job)
    (jobs : List (Nat × Job)) (h : jobId ≠ jobId2) :
    (updateJobEntry jobId2 f jobs).find? (fun p => p.1 == jobId) =
      jobs.find? (fun p => p.1 == jobId) := by
  induction jobs with
  | nil => rfl
  | cons p rest ih =>
      unfold updateJobEntry
      simp only [List.map_cons]
      by_cases hk : p.1 = jobId
      · have hne : (p.1 == jobId2) = false := by
          simp only [beq_eq_false_iff_ne, ne_eq]
          rw [hk]
          exact h
        rw [hne]
        simp only [Bool.false_eq_true, if_false]
        rw [List.find?_cons, List.find?_cons]
        simp [hk]
      · have hme : (p.1 == jobId) = false := by
          simp only [beq_eq_false_iff_ne, ne_eq]
          exact hk
        by_cases hk2 : p.1 = jobId2
        · have : (p.1 == jobId2) = true := by simp [hk2]
          rw [this]
          simp only [if_true]
          rw [List.find?_cons, List.find?_cons]
          simp only [hme]
          exact ih
        · have : (p.1 == jobId2) = false := by simp [hk2]
          rw [this]
          simp only [Bool.false_eq_true, if_false]
          rw [List.find?_cons, List.find?_cons]
          simp only [hme]
          exact ih

theorem find?_append_left {P : α → Bool} (l1 l2 : List α) (x : α)
    (h : l1.find? P = some x) : (l1 ++ l2).find? P = some x := by
  induction l1 with
  | nil => simp [List.find?] at h
  | cons a rest ih =>
      rw [List.cons_append, List.find?_cons]
      rw [List.find?_cons] at h
      cases hP : P a with
      | true => rw [hP] at h; simpa [hP] using h
      | false => rw [hP] at h; simpa [hP] using ih h


theorem getJob_find? (jobId : Nat) (s : QueueState) (j : Job)
    (hj : getJob jobId s = some j) :
    ∃ pr, s.jobs.find? (fun p => p.1 == jobId) = some pr ∧ pr.2 = j := by
  unfold getJob at hj
  rcases Option.map_eq_some'.mp hj with ⟨pr, hpr, hval⟩
  exact ⟨pr, hpr, hval⟩

theorem startJob_frame (jid jobId : Nat) (s : QueueState) (j : Job)
    (hj : getJob jobId s = some j) (hterm : TerminalJob j) :
    getJob jobId (startJob jid s) = some j := by
  unfold startJob
  cases hg : getJob jid s with
  | none => exact hj
  | some j2 =>
      dsimp only
      by_cases hq : j2.status = JobStatus.queued
      · rw [if_pos hq]
        by_cases hid : jobId = jid
        · subst hid
          rw [hj] at hg
          cases hg
          rcases hterm with ht | ht <;> rw [ht] at hq <;> exact absurd hq (by decide)
        · unfold getJob at hj ⊢
          simp only
          rw [find?_key_updateJobEntry_ne jobId jid _ s.jobs hid]
          exact hj
      · rw [if_neg hq]
        exact hj

theorem processNext_frame (jobId : Nat) (s : QueueState) (j : Job)
    (hj : getJob jobId s = some j) (hterm : TerminalJob j) :
    getJob jobId (processNext s) = some j := by
  unfold processNext
  split
  · exact hj
  · cases hf : s.jobs.find? (fun p => p.2.status == JobStatus.queued) with
    | none => exact hj
    | some p => exact startJob_frame p.1 jobId s j hj hterm

theorem tick_getJob (jobId : Nat) (s : QueueState) :
    getJob jobId { s with now := s.now + 1 } = getJob jobId s := rfl

theorem applyQueueOp_frame (s : QueueState) (op : QueueOp) (jobId : Nat) (j : Job)
    (hj : getJob jobId s = some j) (hterm : TerminalJob j)
    (hop : targetsJob op jobId = false) :
    getJob jobId (applyQueueOp s op) = some j := by
  cases op with
  | add t d f =>
      show getJob jobId (processNext (addJobRecord t d f { s with now := s.now + 1 })) = some j
      apply processNext_frame _ _ _ ?_ hterm
      obtain ⟨pr, hpr, hval⟩ := getJob_find? jobId s j hj
      unfold getJob addJobRecord
      simp only
      rw [find?_append_left _ _ _ hpr]
      simp [hval]
  | start jid =>
      exact startJob_frame jid jobId _ j hj hterm
  | update jid p m =>
      have hne : jobId ≠ jid := by
        intro hh
        rw [hh] at hop
        simp [targetsJob] at hop
      show getJob jobId (updateProgressJob jid p m { s with now := s.now + 1 }) = some j
      unfold updateProgressJob
      cases hg : getJob jid { s with now := s.now + 1 } with
      | none => exact hj
      | some j2 =>
          dsimp only
          split
          · unfold getJob
            simp only
            rw [find?_key_updateJobEntry_ne jobId jid _ _ hne]
            exact hj
          · unfold getJob
            simp only
            rw [find?_key_updateJobEntry_ne jobId jid _ _ hne]
            exact hj
  | complete jid r =>
      have hne : jobId ≠ jid := by
        intro hh
        rw [hh] at hop
        simp [targetsJob] at hop
      show getJob jobId (completeJob jid r { s with now := s.now + 1 }) = some j
      unfold completeJob
      cases hg : getJob jid { s with now := s.now + 1 } with
      | none => exact hj
      | some j2 =>
          dsimp only
          apply processNext_frame _ _ _ ?_ hterm
          split
          · unfold getJob
            simp only
            rw [find?_key_updateJobEntry_ne jobId jid _ _ hne]
            exact hj
          · unfold getJob
            simp only
            rw [find?_key_updateJobEntry_ne jobId jid _ _ hne]
            exact hj
  | fail jid e =>
      have hne : jobId ≠ jid := by
        intro hh
        rw [hh] at hop
        simp [targetsJob] at hop
      show getJob jobId (failJob jid e { s with now := s.now + 1 }) = some j
      unfold failJob
      cases hg : getJob jid { s with now := s.now + 1 } with
      | none => exact hj
      | some j2 =>
          dsimp only
          apply processNext_frame _ _ _ ?_ hterm
          split
          · unfold getJob
            simp only
            rw [find?_key_updateJobEntry_ne jobId jid _ _ hne]
            exact hj
          · unfold getJob
            simp only
            rw [find?_key_updateJobEntry_ne jobId jid _ _ hne]
            exact hj
  | next =>
      exact processNext_frame jobId _ j hj hterm

/-- A terminal job is never changed by later operations that do not target
it with `updateProgress`/`completeJob`/`failJob`. -/
theorem runQueueOps_frame (ops : List QueueOp) (s : QueueState) (jobId : Nat) (j : Job)
    (hj : getJob jobId s = some j) (hterm : TerminalJob j)
    (hops : ∀ op ∈ ops, targetsJob op jobId = false) :
    getJob jobId (runQueueOps ops s) = some j := by
  induction ops generalizing s with
  | nil => exact hj
  | cons op rest ih =>
      show getJob jobId (runQueueOps rest (applyQueueOp s op)) = some j
      exact ih (applyQueueOp s op)
        (applyQueueOp_frame s op jobId j hj hterm (hops op (List.mem_cons_self _ _)))
        (fun o ho => hops o (List.mem_cons_of_mem _ ho))


theorem find?_eq_some_split {P : α → Bool} :
    ∀ (l : List α) (x : α), l.find? P = some x →
      P x = true ∧ ∃ l1 l2, l = l1 ++ x :: l2 ∧ ∀ y ∈ l1, P y = false := by
  intro l
  induction l with
  | nil => intro x h; simp [List.find?] at h
  | cons a rest ih =>
      intro x h
      rw [List.find?_cons] at h
      cases hP : P a with
      | true =>
          rw [hP] at h
          cases h
          exact ⟨hP, [], rest, rfl, by intro y hy; cases hy⟩
      | false =>
          rw [hP] at h
          obtain ⟨hx, l1, l2, rfl, hl1⟩ := ih x h
          refine ⟨hx, a :: l1, l2, rfl, ?_⟩
          intro y hy
          rcases List.mem_cons.mp hy with rfl | hy
          · exact hP
          · exact hl1 y hy

theorem updateJobEntry_split (jobId : Nat) (f : Job → Job) (j : Job)
    (l1 l2 : List (Nat × Job))
    (h1 : ∀ q ∈ l1, q.1 ≠ jobId) (h2 : ∀ q ∈ l2, q.1 ≠ jobId) :
    updateJobEntry jobId f (l1 ++ (jobId, j) :: l2) = l1 ++ (jobId, f j) :: l2 := by
  unfold updateJobEntry
  rw [List.map_append, List.map_cons]
  have e1 : l1.map (fun p => if p.1 == jobId then (p.1, f p.2) else p) = l1 := by
    rw [show l1 = l1.map id by simp]
    rw [List.map_map]
    apply List.map_congr_left
    intro q hq
    simp [h1 q (by simpa using hq)]
  have e2 : l2.map (fun p => if p.1 == jobId then (p.1, f p.2) else p) = l2 := by
    rw [show l2 = l2.map id by simp]
    rw [List.map_map]
    apply List.map_congr_left
    intro q hq
    simp [h2 q (by simpa using hq)]
  rw [e1, e2]
  simp

theorem updateJobEntry_keys (jobId : Nat) (f : Job → Job) (jobs : List (Nat × Job)) :
    (updateJobEntry jobId f jobs).map (·.1) = jobs.map (·.1) := by
  unfold updateJobEntry
  rw [List.map_map]
  apply List.map_congr_left
  intro p _
  simp only [Function.comp]
  split <;> rfl

theorem find?_key_of_mem_nodup :
    ∀ (jobs : List (Nat × Job)) (pr : Nat × Job),
      (jobs.map (·.1)).Nodup → pr ∈ jobs →
      jobs.find? (fun p => p.1 == pr.1) = some pr := by
  intro jobs
  induction jobs with
  | nil => intro pr _ hm; cases hm
  | cons a rest ih =>
      intro pr hnd hm
      have hnd2 : (a.1 :: rest.map (·.1)).Nodup := by simpa using hnd
      rw [List.find?_cons]
      rcases List.mem_cons.mp hm with rfl | hm
      · simp
      · have hkey : (a.1 == pr.1) = false := by
          have h1 := (List.nodup_cons.mp hnd2).1
          simp only [beq_eq_false_iff_ne, ne_eq]
          intro he
          exact h1 (he ▸ List.mem_map_of_mem (·.1) hm)
        rw [hkey]
        exact ih pr (List.nodup_cons.mp hnd2).2 hm

theorem mem_key_unique (jobs : List (Nat × Job)) (k : Nat) (a b : Job)
    (hnd : (jobs.map (·.1)).Nodup) (h1 : (k, a) ∈ jobs) (h2 : (k, b) ∈ jobs) :
    a = b := by
  have e1 := find?_key_of_mem_nodup jobs (k, a) hnd h1
  have e2 := find?_key_of_mem_nodup jobs (k, b) hnd h2
  rw [e1] at e2
  cases e2
  rfl

theorem filter_ne_eq_self_of_not_mem (l : List Nat) (x : Nat) (hx : x ∉ l) :
    l.filter (fun y => !(y == x)) = l := by
  apply List.filter_eq_self.mpr
  intro y hy
  have : y ≠ x := fun he => hx (he ▸ hy)
  simp [this]

theorem filter_ne_length_of_nodup :
    ∀ (l : List Nat) (x : Nat), l.Nodup → x ∈ l →
      (l.filter (fun y => !(y == x))).length + 1 = l.length := by
  intro l
  induction l with
  | nil => intro x _ hx; cases hx
  | cons a rest ih =>
      intro x hnd hx
      rw [List.filter_cons]
      by_cases hax : a = x
      · subst hax
        have hb : (!(a == a)) = false := by simp
        rw [hb]
        simp only [Bool.false_eq_true, if_false]
        rw [filter_ne_eq_self_of_not_mem rest a (List.nodup_cons.mp hnd).1]
        simp
      · have hx2 : x ∈ rest := by
          rcases List.mem_cons.mp hx with h | h
          · exact absurd h.symm hax
          · exact h
        have hb : (!(a == x)) = true := by simp [hax]
        rw [hb]
        simp only [if_true]
        have hih := ih x (List.nodup_cons.mp hnd).2 hx2
        simp only [List.length_cons]
        omega


/-- The queue's internal consistency: unique job keys, fresh id counter, the
processing set mirrors exactly the jobs in `processing` status, and the set
size is capped by `maxConcurrent`. -/
def QueueInv (s : QueueState) : Prop :=
  (s.jobs.map (·.1)).Nodup ∧
  (∀ p ∈ s.jobs, p.1 < s.nextId) ∧
  s.processing.Nodup ∧
  (∀ id, id ∈ s.processing ↔ ∃ jb, (id, jb) ∈ s.jobs ∧ jb.status = JobStatus.processing) ∧
  processingCount s = s.processing.length ∧
  s.processing.length ≤ s.maxConcurrent

theorem queueInv_init : QueueInv initQueue := by
  refine ⟨by simp [initQueue], by simp [initQueue], by simp [initQueue], ?_, by rfl, by simp [initQueue]⟩
  intro id
  simp [initQueue]

theorem getJob_split (jid : Nat) (s : QueueState) (j2 : Job)
    (hnd : (s.jobs.map (·.1)).Nodup) (hg : getJob jid s = some j2) :
    ∃ l1 l2, s.jobs = l1 ++ (jid, j2) :: l2 ∧
      (∀ q ∈ l1, q.1 ≠ jid) ∧ (∀ q ∈ l2, q.1 ≠ jid) := by
  obtain ⟨pr, hpr, hval⟩ := getJob_find? jid s j2 hg
  obtain ⟨hP, l1, l2, hsplit, hl1⟩ := find?_eq_some_split s.jobs pr hpr
  have hkey : pr.1 = jid := by simpa using hP
  have hpr2 : pr = (jid, j2) := by
    obtain ⟨a, b⟩ := pr
    simp only at hkey hval
    rw [hkey, hval]
  rw [hpr2] at hsplit
  have hndsplit : ((l1 ++ (jid, j2) :: l2).map (·.1)).Nodup := hsplit ▸ hnd
  rw [List.map_append, List.map_cons] at hndsplit
  have hmid := (List.nodup_cons.mp (List.nodup_middle.mp hndsplit)).1
  refine ⟨l1, l2, hsplit, ?_, ?_⟩
  · intro q hq he
    exact hmid (List.mem_append.mpr (Or.inl (he ▸ List.mem_map_of_mem (·.1) hq)))
  · intro q hq he
    exact hmid (List.mem_append.mpr (Or.inr (he ▸ List.mem_map_of_mem (·.1) hq)))

theorem countP_split (P : (Nat × Job) → Bool) (l1 l2 : List (Nat × Job)) (m : Nat × Job) :
    List.countP P (l1 ++ m :: l2) =
      List.countP P l1 + (if P m then 1 else 0) + List.countP P l2 := by
  rw [List.countP_append, List.countP_cons]
  split <;> omega

theorem mem_split_ne {l1 l2 : List (Nat × Job)} {jid : Nat} {j2 : Job} {id : Nat} {jb : Job}
    (h1 : ∀ q ∈ l1, q.1 ≠ jid) (hne : id ≠ jid) :
    ((id, jb) ∈ l1 ++ (jid, j2) :: l2) ↔ (id, jb) ∈ l1 ∨ (id, jb) ∈ l2 := by
  rw [List.mem_append, List.mem_cons]
  constructor
  · rintro (h | h | h)
    · exact Or.inl h
    · cases h
      exact absurd rfl hne
    · exact Or.inr h
  · rintro (h | h)
    · exact Or.inl h
    · exact Or.inr (Or.inr h)

/-- `updateProgress` preserves the invariant: it changes no status, no key
and not the processing set. -/
theorem queueInv_updateProgressJob (jid : Nat) (pv : Rat) (m : Option String)
    (s : QueueState) (h : QueueInv s) : QueueInv (updateProgressJob jid pv m s) := by
  obtain ⟨hnd, hlt, hpnd, hpm, hcnt, hbd⟩ := h
  unfold updateProgressJob
  cases hg : getJob jid s with
  | none => exact ⟨hnd, hlt, hpnd, hpm, hcnt, hbd⟩
  | some j2 =>
      dsimp only
      obtain ⟨l1, l2, hsplit, h1, h2⟩ := getJob_split jid s j2 hnd hg
      have hmid : (jid, j2) ∈ s.jobs := by
        rw [hsplit]
        exact List.mem_append_right _ (List.mem_cons_self _ _)
      have hjobs2 : ∀ (f : Job → Job),
          updateJobEntry jid f s.jobs = l1 ++ (jid, f j2) :: l2 := by
        intro f
        rw [hsplit]
        exact updateJobEntry_split jid f j2 l1 l2 h1 h2
      have core : ∀ (f : Job → Job), (f j2).status = j2.status →
          QueueInv { s with jobs := updateJobEntry jid f s.jobs } := by
        intro f hstat
        refine ⟨?_, ?_, hpnd, ?_, ?_, hbd⟩
        · show ((updateJobEntry jid f s.jobs).map (·.1)).Nodup
          rw [updateJobEntry_keys]
          exact hnd
        · intro q hq
          rw [hjobs2 f] at hq
          rcases List.mem_append.mp hq with hq | hq
          · exact hlt q (by rw [hsplit]; exact List.mem_append_left _ hq)
          · rcases List.mem_cons.mp hq with rfl | hq
            · exact hlt (jid, j2) hmid
            · exact hlt q (by
                rw [hsplit]
                exact List.mem_append_right _ (List.mem_cons_of_mem _ hq))
        · intro id
          rw [hpm id]
          constructor
          · rintro ⟨jb, hjb, hjbs⟩
            rw [hsplit] at hjb
            rcases List.mem_append.mp hjb with hjb | hjb
            · exact ⟨jb, by rw [hjobs2 f]; exact List.mem_append_left _ hjb, hjbs⟩
            · rcases List.mem_cons.mp hjb with heq | hjb
              · have hid : id = jid := by simpa using congrArg Prod.fst heq
                have hjbeq : jb = j2 := by simpa using congrArg Prod.snd heq
                refine ⟨f j2, ?_, ?_⟩
                · rw [hid, hjobs2 f]
                  exact List.mem_append_right _ (List.mem_cons_self _ _)
                · rw [hstat, ← hjbeq]
                  exact hjbs
              · exact ⟨jb, by
                  rw [hjobs2 f]
                  exact List.mem_append_right _ (List.mem_cons_of_mem _ hjb), hjbs⟩
          · rintro ⟨jb, hjb, hjbs⟩
            rw [hjobs2 f] at hjb
            rcases List.mem_append.mp hjb with hjb | hjb
            · exact ⟨jb, by rw [hsplit]; exact List.mem_append_left _ hjb, hjbs⟩
            · rcases List.mem_cons.mp hjb with heq | hjb
              · have hid : id = jid := by simpa using congrArg Prod.fst heq
                have hjbeq : jb = f j2 := by simpa using congrArg Prod.snd heq
                refine ⟨j2, by rw [hid]; exact hmid, ?_⟩
                rw [← hstat, ← hjbeq]
                exact hjbs
              · exact ⟨jb, by
                  rw [hsplit]
                  exact List.mem_append_right _ (List.mem_cons_of_mem _ hjb), hjbs⟩
        · show List.countP _ (updateJobEntry jid f s.jobs) = s.processing.length
          rw [hjobs2 f, countP_split]
          have hold : processingCount s = List.countP
              (fun p => p.2.status == JobStatus.processing) s.jobs := rfl
          rw [hold, hsplit, countP_split] at hcnt
          have : ((jid, f j2).2.status == JobStatus.processing) =
              ((jid, j2).2.status == JobStatus.processing) := by
            simp only [hstat]
          rw [this]
          exact hcnt
      split
      · exact core _ rfl
      · exact core _ rfl


/-- Setting a job to a non-`processing` status while removing its id from
the processing set preserves the invariant (the common core of
`completeJob` and `failJob`). -/
theorem queueInv_terminalize (jid : Nat) (s : QueueState) (j2 : Job) (f : Job → Job)
    (hg : getJob jid s = some j2) (hstat : (f j2).status ≠ JobStatus.processing)
    (h : QueueInv s) :
    QueueInv { s with
      jobs := updateJobEntry jid f s.jobs,
      processing := s.processing.filter (fun y => !(y == jid)) } := by
  obtain ⟨hnd, hlt, hpnd, hpm, hcnt, hbd⟩ := h
  obtain ⟨l1, l2, hsplit, h1, h2⟩ := getJob_split jid s j2 hnd hg
  have hmid : (jid, j2) ∈ s.jobs := by
    rw [hsplit]
    exact List.mem_append_right _ (List.mem_cons_self _ _)
  have hjobs2 : updateJobEntry jid f s.jobs = l1 ++ (jid, f j2) :: l2 := by
    rw [hsplit]
    exact updateJobEntry_split jid f j2 l1 l2 h1 h2
  have hproc : ∀ id, id ∈ s.processing.filter (fun y => !(y == jid)) ↔
      id ∈ s.processing ∧ id ≠ jid := by
    intro id
    rw [List.mem_filter]
    simp
  refine ⟨?_, ?_, List.Nodup.filter _ hpnd, ?_, ?_, ?_⟩
  · show ((updateJobEntry jid f s.jobs).map (·.1)).Nodup
    rw [updateJobEntry_keys]
    exact hnd
  · intro q hq
    rw [hjobs2] at hq
    rcases List.mem_append.mp hq with hq | hq
    · exact hlt q (by rw [hsplit]; exact List.mem_append_left _ hq)
    · rcases List.mem_cons.mp hq with heq | hq
      · rw [heq]
        exact hlt (jid, j2) hmid
      · exact hlt q (by
          rw [hsplit]
          exact List.mem_append_right _ (List.mem_cons_of_mem _ hq))
  · intro id
    rw [hproc id]
    constructor
    · rintro ⟨hin, hne⟩
      obtain ⟨jb, hjb, hjbs⟩ := (hpm id).mp hin
      rw [hsplit] at hjb
      refine ⟨jb, ?_, hjbs⟩
      rw [hjobs2]
      exact (mem_split_ne h1 hne).mpr ((mem_split_ne h1 hne).mp hjb)
    · rintro ⟨jb, hjb, hjbs⟩
      rw [hjobs2] at hjb
      have hne : id ≠ jid := by
        intro he
        rcases List.mem_append.mp hjb with hq | hq
        · exact h1 (id, jb) hq he
        · rcases List.mem_cons.mp hq with heq | hq
          · have : jb = f j2 := by simpa using congrArg Prod.snd heq
            rw [this] at hjbs
            exact hstat hjbs
          · exact h2 (id, jb) hq he
      refine ⟨?_, hne⟩
      apply (hpm id).mpr
      refine ⟨jb, ?_, hjbs⟩
      rw [hsplit]
      exact (mem_split_ne h1 hne).mpr ((mem_split_ne h1 hne).mp hjb)
  · show List.countP _ (updateJobEntry jid f s.jobs) = _
    have hold : processingCount s = List.countP
        (fun p => p.2.status == JobStatus.processing) s.jobs := rfl
    rw [hold, hsplit, countP_split] at hcnt
    rw [hjobs2, countP_split]
    have hnew : ((jid, f j2).2.status == JobStatus.processing) = false := by
      simp only [beq_eq_false_iff_ne, ne_eq]
      exact hstat
    rw [hnew]
    by_cases hj2p : j2.status = JobStatus.processing
    · have hjin : jid ∈ s.processing := (hpm jid).mpr ⟨j2, hmid, hj2p⟩
      have hflen := filter_ne_length_of_nodup s.processing jid hpnd hjin
      have hmidP : ((jid, j2).2.status == JobStatus.processing) = true := by
        simp [hj2p]
      rw [hmidP] at hcnt
      simp only [if_true] at hcnt
      simp only [Bool.false_eq_true, if_false]
      omega
    · have hjout : jid ∉ s.processing := by
        intro hin
        obtain ⟨jb, hjb, hjbs⟩ := (hpm jid).mp hin
        have : jb = j2 := mem_key_unique s.jobs jid jb j2 hnd hjb hmid
        rw [this] at hjbs
        exact hj2p hjbs
      rw [filter_ne_eq_self_of_not_mem s.processing jid hjout]
      have hmidP : ((jid, j2).2.status == JobStatus.processing) = false := by
        simp [hj2p]
      rw [hmidP] at hcnt
      simp only [Bool.false_eq_true, if_false] at hcnt ⊢
      omega
  · calc (s.processing.filter (fun y => !(y == jid))).length
        ≤ s.processing.length := List.length_filter_le _ _
      _ ≤ s.maxConcurrent := hbd


/-- `processNext` preserves the invariant: it starts at most one queued job
and only below capacity. -/
theorem queueInv_processNext (s : QueueState) (h : QueueInv s) :
    QueueInv (processNext s) := by
  obtain ⟨hnd, hlt, hpnd, hpm, hcnt, hbd⟩ := h
  unfold processNext
  split
  · exact ⟨hnd, hlt, hpnd, hpm, hcnt, hbd⟩
  · rename_i hcap
    cases hf : s.jobs.find? (fun p => p.2.status == JobStatus.queued) with
    | none => exact ⟨hnd, hlt, hpnd, hpm, hcnt, hbd⟩
    | some pr =>
        obtain ⟨hP, _, _, hsplitq, _⟩ := find?_eq_some_split s.jobs pr hf
        have hq : pr.2.status = JobStatus.queued := by simpa using hP
        have hmem : pr ∈ s.jobs := by
          rw [hsplitq]
          exact List.mem_append_right _ (List.mem_cons_self _ _)
        have hgj : getJob pr.1 s = some pr.2 := by
          unfold getJob
          rw [find?_key_of_mem_nodup s.jobs pr hnd hmem]
          rfl
        dsimp only
        unfold startJob
        rw [hgj]
        dsimp only
        rw [if_pos hq]
        obtain ⟨l1, l2, hsplit, h1, h2⟩ := getJob_split pr.1 s pr.2 hnd hgj
        have hmid : (pr.1, pr.2) ∈ s.jobs := by
          rw [hsplit]
          exact List.mem_append_right _ (List.mem_cons_self _ _)
        have hjobs2 : ∀ (f : Job → Job),
            updateJobEntry pr.1 f s.jobs = l1 ++ (pr.1, f pr.2) :: l2 := by
          intro f
          rw [hsplit]
          exact updateJobEntry_split pr.1 f pr.2 l1 l2 h1 h2
        have hnotin : pr.1 ∉ s.processing := by
          intro hin
          obtain ⟨jb, hjb, hjbs⟩ := (hpm pr.1).mp hin
          have : jb = pr.2 := mem_key_unique s.jobs pr.1 jb pr.2 hnd hjb hmid
          rw [this, hq] at hjbs
          exact absurd hjbs (by decide)
        have hcontains : s.processing.contains pr.1 = false := by
          rw [Bool.eq_false_iff]
          intro hc
          rw [List.contains_eq_any_beq, List.any_eq_true] at hc
          obtain ⟨x, hx, hbeq⟩ := hc
          exact hnotin ((eq_of_beq hbeq) ▸ hx)
        rw [if_neg (show ¬ (s.processing.contains pr.1 = true) by
          rw [hcontains]; exact Bool.false_ne_true)]
        have hlen1 : s.processing.length < s.maxConcurrent := Nat.lt_of_not_le hcap
        refine ⟨?_, ?_, ?_, ?_, ?_, ?_⟩
        · dsimp only
          rw [updateJobEntry_keys]
          exact hnd
        · intro q hq2
          rw [hjobs2] at hq2
          rcases List.mem_append.mp hq2 with hq2 | hq2
          · exact hlt q (by rw [hsplit]; exact List.mem_append_left _ hq2)
          · rcases List.mem_cons.mp hq2 with heq | hq2
            · rw [heq]
              exact hlt (pr.1, pr.2) hmid
            · exact hlt q (by
                rw [hsplit]
                exact List.mem_append_right _ (List.mem_cons_of_mem _ hq2))
        · dsimp only
          rw [List.nodup_append]
          exact ⟨hpnd, List.nodup_singleton _, by
            intro a ha hb
            rw [List.mem_singleton] at hb
            exact hnotin (hb ▸ ha)⟩
        · intro id
          dsimp only
          rw [List.mem_append, List.mem_singleton]
          constructor
          · rintro (hin | rfl)
            · have hne : id ≠ pr.1 := fun he => hnotin (he ▸ hin)
              obtain ⟨jb, hjb, hjbs⟩ := (hpm id).mp hin
              rw [hsplit] at hjb
              refine ⟨jb, ?_, hjbs⟩
              rw [hjobs2]
              exact (mem_split_ne h1 hne).mpr ((mem_split_ne h1 hne).mp hjb)
            · refine ⟨{ pr.2 with
                status := JobStatus.processing,
                startedAt := some s.now }, ?_, rfl⟩
              rw [hjobs2]
              exact List.mem_append_right _ (List.mem_cons_self _ _)
          · rintro ⟨jb, hjb, hjbs⟩
            rw [hjobs2] at hjb
            by_cases hne : id = pr.1
            · exact Or.inr hne
            · left
              apply (hpm id).mpr
              refine ⟨jb, ?_, hjbs⟩
              rw [hsplit]
              exact (mem_split_ne h1 hne).mpr ((mem_split_ne h1 hne).mp hjb)
        · unfold processingCount
          dsimp only
          have hold : processingCount s = List.countP
              (fun p => p.2.status == JobStatus.processing) s.jobs := rfl
          rw [hold, hsplit, countP_split] at hcnt
          rw [hjobs2, countP_split]
          have hmidP : ((pr.1, pr.2).2.status == JobStatus.processing) = false := by
            rw [show (pr.1, pr.2).2.status = pr.2.status from rfl, hq]
            decide
          rw [hmidP] at hcnt
          simp only [Bool.false_eq_true, if_false] at hcnt
          have hx : (((pr.1,
              { pr.2 with
                status := JobStatus.processing,
                startedAt := some s.now })
              : Nat × Job).2.status == JobStatus.processing) = true := rfl
          rw [hx]
          simp only [if_true, List.length_append, List.length_singleton]
          omega
        · dsimp only
          simp only [List.length_append, List.length_singleton]
          omega


theorem queueInv_addJobRecord (t d fn : String) (s : QueueState) (h : QueueInv s) :
    QueueInv (addJobRecord t d fn s) := by
  obtain ⟨hnd, hlt, hpnd, hpm, hcnt, hbd⟩ := h
  refine ⟨?_, ?_, hpnd, ?_, ?_, hbd⟩
  · dsimp only [addJobRecord]
    rw [List.map_append]
    rw [List.nodup_append]
    refine ⟨hnd, by simp, ?_⟩
    intro a ha hb
    simp only [List.map_cons, List.map_nil, List.mem_singleton] at hb
    obtain ⟨p, hp, hpa⟩ := List.mem_map.mp ha
    have := hlt p hp
    omega
  · intro q hq
    dsimp only [addJobRecord] at hq ⊢
    rcases List.mem_append.mp hq with hq | hq
    · have := hlt q hq
      omega
    · rcases List.mem_singleton.mp hq with rfl
      simp
  · intro id
    dsimp only [addJobRecord]
    rw [hpm id]
    constructor
    · rintro ⟨jb, hjb, hjbs⟩
      exact ⟨jb, List.mem_append_left _ hjb, hjbs⟩
    · rintro ⟨jb, hjb, hjbs⟩
      rcases List.mem_append.mp hjb with hjb | hjb
      · exact ⟨jb, hjb, hjbs⟩
      · rcases List.mem_singleton.mp hjb with heq
        have h3 := congrArg (fun (p : Nat × Job) => p.2.status) heq
        have h2 : jb.status = JobStatus.queued := h3
        rw [h2] at hjbs
        exact absurd hjbs (by decide)
  · show List.countP _ (s.jobs ++ [(s.nextId, newJobRecord t d fn s.now)]) = _
    rw [List.countP_append]
    have hz : List.countP (fun (p : Nat × Job) => p.2.status == JobStatus.processing)
        [(s.nextId, newJobRecord t d fn s.now)] = 0 := rfl
    rw [hz]
    rw [show (addJobRecord t d fn s).processing = s.processing from rfl]
    have hold : processingCount s = List.countP
        (fun p => p.2.status == JobStatus.processing) s.jobs := rfl
    rw [hold] at hcnt
    omega

theorem queueInv_completeJob (jid : Nat) (r : String) (s : QueueState)
    (h : QueueInv s) : QueueInv (completeJob jid r s) := by
  unfold completeJob
  cases hg : getJob jid s with
  | none => exact h
  | some j2 =>
      dsimp only
      apply queueInv_processNext
      have hs1 := queueInv_terminalize jid s j2
        (fun j0 => { j0 with
          status := JobStatus.completed, progress := 100,
          completedAt := some s.now, result := some r })
        hg (fun hc => JobStatus.noConfusion hc) h
      split <;> exact hs1

theorem queueInv_failJob (jid : Nat) (e : String) (s : QueueState)
    (h : QueueInv s) : QueueInv (failJob jid e s) := by
  unfold failJob
  cases hg : getJob jid s with
  | none => exact h
  | some j2 =>
      dsimp only
      apply queueInv_processNext
      have hs1 := queueInv_terminalize jid s j2
        (fun j0 => { j0 with
          status := JobStatus.failed,
          completedAt := some s.now, error := some e })
        hg (fun hc => JobStatus.noConfusion hc) h
      split <;> exact hs1

theorem queueInv_applyQueueOp (s : QueueState) (op : QueueOp) (h : QueueInv s)
    (hop : isStartOp op = false) : QueueInv (applyQueueOp s op) := by
  have htick : QueueInv { s with now := s.now + 1 } := h
  cases op with
  | add t d f => exact queueInv_processNext _ (queueInv_addJobRecord t d f _ htick)
  | start jid => exact absurd hop (by simp [isStartOp])
  | update jid p m => exact queueInv_updateProgressJob jid p m _ htick
  | complete jid r => exact queueInv_completeJob jid r _ htick
  | fail jid e => exact queueInv_failJob jid e _ htick
  | next => exact queueInv_processNext _ htick

theorem queueInv_runQueueOps :
    ∀ (ops : List QueueOp) (s : QueueState), QueueInv s →
      (∀ op ∈ ops, isStartOp op = false) → QueueInv (runQueueOps ops s) := by
  intro ops
  induction ops with
  | nil => intro s h _; exact h
  | cons op rest ih =>
      intro s h hops
      show QueueInv (runQueueOps rest (applyQueueOp s op))
      exact ih _ (queueInv_applyQueueOp s op h (hops op (List.mem_cons_self _ _)))
        (fun o ho => hops o (List.mem_cons_of_mem _ ho))

theorem maxConcurrent_startJob (jid : Nat) (s : QueueState) :
    (startJob jid s).maxConcurrent = s.maxConcurrent := by
  unfold startJob
  cases hg : getJob jid s with
  | none => rfl
  | some j =>
      dsimp only
      split <;> rfl

theorem maxConcurrent_processNext (s : QueueState) :
    (processNext s).maxConcurrent = s.maxConcurrent := by
  unfold processNext
  split
  · rfl
  · cases hf : s.jobs.find? (fun p => p.2.status == JobStatus.queued) with
    | none => rfl
    | some p => exact maxConcurrent_startJob p.1 s

theorem maxConcurrent_applyQueueOp (s : QueueState) (op : QueueOp) :
    (applyQueueOp s op).maxConcurrent = s.maxConcurrent := by
  cases op with
  | add t d f =>
      show (processNext (addJobRecord t d f _)).maxConcurrent = _
      rw [maxConcurrent_processNext]
      rfl
  | start jid => exact maxConcurrent_startJob jid _
  | update jid p m =>
      show (updateProgressJob jid p m _).maxConcurrent = _
      unfold updateProgressJob
      cases hg : getJob jid { s with now := s.now + 1 } with
      | none => rfl
      | some j =>
          dsimp only
          split <;> rfl
  | complete jid r =>
      show (completeJob jid r _).maxConcurrent = _
      unfold completeJob
      cases hg : getJob jid { s with now := s.now + 1 } with
      | none => rfl
      | some j =>
          dsimp only
          rw [maxConcurrent_processNext]
          split <;> rfl
  | fail jid e =>
      show (failJob jid e _).maxConcurrent = _
      unfold failJob
      cases hg : getJob jid { s with now := s.now + 1 } with
      | none => rfl
      | some j =>
          dsimp only
          rw [maxConcurrent_processNext]
          split <;> rfl
  | next => exact maxConcurrent_processNext _

theorem maxConcurrent_runQueueOps :
    ∀ (ops : List QueueOp) (s : QueueState),
      (runQueueOps ops s).maxConcurrent = s.maxConcurrent := by
  intro ops
  induction ops with
  | nil => intro s; rfl
  | cons op rest ih =>
      intro s
      show (runQueueOps rest (applyQueueOp s op)).maxConcurrent = _
      rw [ih, maxConcurrent_applyQueueOp]


/-! ## The claims -/

/-- Claim C1: the specification demands that `chunkText` reject
`overlap >= targetSize` with an `InvalidConfiguration` error.  The source has
no such check, and on `text = "aaaa"`, `targetSize = 2`, `overlap = 2` the
loop never terminates (`start` returns to `0` after every iteration), so the
call neither errors nor returns chunks for any amount of fuel. -/
theorem C1_overlap_geq_size_loops (O : RegexOracle) (fuel : Nat) :
    chunkText O fuel aaaaStr 2 2 1 = none := by
  have hkw : hasFinancialKeywords aaaaStr = false := by decide
  have hfin : isFinancialDoc O aaaaStr = false := by
    unfold isFinancialDoc
    rw [hkw]
    rfl
  unfold chunkText
  rw [hfin]
  exact chunkLoop_aaaa O fuel []

/-- Claim C2 (amended): the queue has no terminal-state guards, so only the
frame part of the claim holds — a job that has reached a terminal status is
unchanged by every subsequent operation that does not target its id.
Operations targeting the id still mutate it (see the counterexample). -/
theorem C2_terminal_state_frame (ops : List QueueOp) (s : QueueState) (jobId : Nat)
    (j : Job) (hj : getJob jobId s = some j) (hterm : TerminalJob j)
    (hops : ∀ op ∈ ops, targetsJob op jobId = false) :
    getJob jobId (runQueueOps ops s) = some j :=
  runQueueOps_frame ops s jobId j hj hterm hops

/-- The base state of the C2 witness: one job, added and completed. -/
def c2wBase : QueueState :=
  runQueueOps [QueueOp.add "t" "d" "f", QueueOp.complete 0 "res"] initQueue

def c2wJob : Job := (getJob 0 c2wBase).getD default

def c2wOps : List QueueOp :=
  [QueueOp.add "t2" "d2" "f2", QueueOp.update 1 10 none, QueueOp.next]

theorem C2_terminal_state_frame_witness :
    getJob 0 (runQueueOps c2wOps c2wBase) = some c2wJob :=
  C2_terminal_state_frame c2wOps c2wBase 0 c2wJob rfl (Or.inl rfl) (by decide)

def c2Trace1 : List QueueOp := [QueueOp.add "t" "d" "f", QueueOp.complete 0 "res"]

def c2Trace2 : List QueueOp :=
  [QueueOp.add "t" "d" "f", QueueOp.complete 0 "res", QueueOp.update 0 50 none]

/-- Claim C2 counterexample: after `completeJob` the job is `completed` with
`progress = 100`, yet a subsequent `updateProgress(id, 50)` mutates the
completed job's progress to `50` — the source checks no status. -/
theorem C2_terminal_mutation_counterexample :
    (getJob 0 (runQueueOps c2Trace1 initQueue)).map (fun j => (j.status, j.progress))
        = some (JobStatus.completed, 100)
    ∧ (getJob 0 (runQueueOps c2Trace2 initQueue)).map (fun j => (j.status, j.progress))
        = some (JobStatus.completed, 50) := by
  constructor
  · rfl
  · rfl

/-- Claim C3 (amended): `vectorizeDocument` performs no dimension check at
all.  Whenever the chunker returns a non-empty list, the call succeeds and
appends the gateway's embeddings to the store verbatim, whatever their
lengths (see the counterexample for a store reaching mixed lengths). -/
theorem C3_vectorize_no_dimension_check (O : RegexOracle)
    (gen : List Str → List (List Rat)) (fuel : Nat) (documentId : String)
    (text : Str) (extra : List (String × String)) (s : MemoryStore)
    (chunkObjects : List Chunk)
    (hch : chunkText O fuel text 1000 200 1 = some chunkObjects)
    (hne : chunkObjects ≠ []) :
    vectorizeDocument O gen fuel documentId text extra s =
      some (Except.ok
        (vectorizeStore documentId extra chunkObjects
          (gen (chunkObjects.map (·.text))) s, chunkObjects.length))
    ∧ (vectorizeStore documentId extra chunkObjects
        (gen (chunkObjects.map (·.text))) s).embeddings
        = s.embeddings ++ gen (chunkObjects.map (·.text)) := by
  constructor
  · unfold vectorizeDocument
    rw [hch]
    dsimp only
    rw [if_neg (fun h0 => hne (List.length_eq_zero.mp h0))]
  · rfl

def c3wGen : List Str → List (List Rat) := fun _ => [[1, 0], [2]]

def c3wChunks : List Chunk := (chunkText trivOracle 2 "hi".data 1000 200 1).getD []

theorem C3_vectorize_no_dimension_check_witness :
    (vectorizeDocument trivOracle c3wGen 2 "docA" "hi".data [] emptyStore =
      some (Except.ok
        (vectorizeStore "docA" [] c3wChunks
          (c3wGen (c3wChunks.map (·.text))) emptyStore, c3wChunks.length)))
    ∧ (vectorizeStore "docA" [] c3wChunks
        (c3wGen (c3wChunks.map (·.text))) emptyStore).embeddings
        = emptyStore.embeddings ++ c3wGen (c3wChunks.map (·.text)) :=
  C3_vectorize_no_dimension_check trivOracle c3wGen 2 "docA" "hi".data [] emptyStore
    c3wChunks rfl (List.cons_ne_nil _ _)

def c3Extract : Option (Except String (MemoryStore × Nat)) → MemoryStore
  | some (Except.ok p) => p.1
  | _ => emptyStore

def c3r1 : Option (Except String (MemoryStore × Nat)) :=
  vectorizeDocument trivOracle (fun _ => [[1, 0]]) 2 "docA" "hi".data [] emptyStore

def c3r2 : Option (Except String (MemoryStore × Nat)) :=
  vectorizeDocument trivOracle (fun _ => [[3, 4, 5]]) 2 "docB" "ok".data []
    (c3Extract c3r1)

/-- Claim C3 counterexample: two successful `vectorizeDocument` calls whose
gateway returns a 2-vector and then a 3-vector; both succeed (no
`DimensionMismatch`) and the store ends holding embeddings of lengths
`[2, 3]`. -/
theorem C3_dimension_mismatch_counterexample :
    isOkResult c3r1 = true ∧ isOkResult c3r2 = true ∧
      (c3Extract c3r2).embeddings.map List.length = [2, 3] := by
  refine ⟨rfl, rfl, rfl⟩

/-- Claim C4 (amended): `deleteDocument` removes exactly the records whose
`document_id` matches (columnwise on all four arrays, stated on the store
and on the record-list view), and afterwards a query filtered to that id
returns no results and its `chunkCount` is `0`; but the returned boolean is
`true` unconditionally, even when nothing was removed (see the
counterexample). -/
theorem C4_delete_document (documentId : String) (s : MemoryStore)
    (gen : Str → List Rat) (query : Str) (limit : Nat) (rs : List VecRecord) :
    (deleteDocument documentId s).1 = true
    ∧ (deleteDocument documentId s).2.metadatas =
        s.metadatas.filter (fun m => !(m.document_id == documentId))
    ∧ deleteDocument documentId (projectStore rs) =
        (true, projectStore (rs.filter (fun r => !(r.metadata.document_id == documentId))))
    ∧ searchSimilarChunks gen query (some documentId) limit (deleteDocument documentId s).2 = []
    ∧ (getDocumentStats documentId (deleteDocument documentId s).2).chunkCount = 0 := by
  refine ⟨rfl, deleteDocument_metadatas documentId s,
    deleteDocument_project documentId rs, ?_, getDocumentStats_after_delete documentId s⟩
  show (sortResults (candidateResults (gen query) (some documentId)
      (deleteDocument documentId s).2)).take limit = []
  rw [candidateResults_after_delete]
  rw [show sortResults ([] : List SearchResult) = [] from rfl]
  exact List.take_nil

/-- Claim C4 counterexample: deleting from the empty store removes nothing,
yet the call still returns `true` (the source ends with an unconditional
`return true`), where the claim demands `false`. -/
theorem C4_delete_empty_counterexample :
    deleteDocument "docA" emptyStore = (true, emptyStore) := rfl

/-- Claim C5: with `limit = n` (the number of records passing the filter)
the query returns every candidate exactly once (a permutation), sorted by
descending cosine similarity (the real value each `simPair` represents),
equal-similarity records keeping their store order (the filter at every
similarity value is unchanged — stability), and for any `k` the `limit = k`
query is precisely the `k`-prefix of that ordering; each result's
similarity is the cosine similarity of the query embedding with the stored
embedding. -/
theorem C5_query_ranking (gen : Str → List Rat) (query : Str)
    (documentId : Option String) (s : MemoryStore) (n k : Nat)
    (hn : n = (candidateResults (gen query) documentId s).length) :
    (searchSimilarChunks gen query documentId n s).Perm
        (candidateResults (gen query) documentId s)
    ∧ (searchSimilarChunks gen query documentId n s).Pairwise
        (fun a b => simValue b.simPair ≤ simValue a.simPair)
    ∧ (∀ w : Rat × Rat,
        (searchSimilarChunks gen query documentId n s).filter
            (fun x => simEQ x.simPair w) =
          (candidateResults (gen query) documentId s).filter
            (fun x => simEQ x.simPair w))
    ∧ searchSimilarChunks gen query documentId k s =
        (searchSimilarChunks gen query documentId n s).take k
    ∧ ∀ r, simValue (mkSearchResult (gen query) r).simPair =
        cosineSimilarity (gen query) r.1 := by
  have hlt : ∀ x y : SearchResult, resultLT x y = true ↔
      simValue x.simPair < simValue y.simPair := fun x y => simLT_iff _ _
  have hslen : (sortResults (candidateResults (gen query) documentId s)).length
      = (candidateResults (gen query) documentId s).length :=
    (stableSortDesc_perm resultLT _).length_eq
  have hfull : searchSimilarChunks gen query documentId n s
      = sortResults (candidateResults (gen query) documentId s) := by
    show (sortResults (candidateResults (gen query) documentId s)).take n = _
    rw [hn, ← hslen]
    exact List.take_length _
  refine ⟨?_, ?_, ?_, ?_, ?_⟩
  · rw [hfull]
    exact stableSortDesc_perm resultLT _
  · rw [hfull]
    exact stableSortDesc_pairwise (fun r => simValue r.simPair) resultLT hlt _
  · intro w
    rw [hfull]
    exact stableSortDesc_filter (fun r => simValue r.simPair) resultLT hlt
      (simValue w) (fun x => simEQ x.simPair w) (fun z => simEQ_iff z.simPair w) _
  · rw [hfull]
    rfl
  · intro r
    exact (cosineSimilarity_eq_simValue (gen query) r.1).symm

def wGen5 : Str → List Rat := fun _ => [1, 0]

def wMeta5a : ChunkMetadata :=
  { document_id := "docA", chunk_index := 0, chunk_text := []
    page_number := 1, start_char := 0, end_char := 0, extra := [] }

def wMeta5b : ChunkMetadata :=
  { wMeta5a with
    chunk_index := 1 }

def wStore5 : MemoryStore :=
  { documents := ["a".data, "b".data]
    embeddings := [[1, 0], [0, 1]]
    metadatas := [wMeta5a, wMeta5b]
    ids := ["docA_chunk_0", "docA_chunk_1"] }

theorem C5_query_ranking_witness :
    (searchSimilarChunks wGen5 "q".data none 2 wStore5).Perm
        (candidateResults (wGen5 "q".data) none wStore5)
    ∧ (searchSimilarChunks wGen5 "q".data none 2 wStore5).Pairwise
        (fun a b => simValue b.simPair ≤ simValue a.simPair)
    ∧ (∀ w : Rat × Rat,
        (searchSimilarChunks wGen5 "q".data none 2 wStore5).filter
            (fun x => simEQ x.simPair w) =
          (candidateResults (wGen5 "q".data) none wStore5).filter
            (fun x => simEQ x.simPair w))
    ∧ searchSimilarChunks wGen5 "q".data none 1 wStore5 =
        (searchSimilarChunks wGen5 "q".data none 2 wStore5).take 1
    ∧ ∀ r, simValue (mkSearchResult (wGen5 "q".data) r).simPair =
        cosineSimilarity (wGen5 "q".data) r.1 :=
  C5_query_ranking wGen5 "q".data none wStore5 2 1 (by decide)

/-- Claim C6 (amended): along every trace whose operations are the public
API calls the source itself issues (`addJob`, `updateProgress`,
`completeJob`, `failJob`, `processNext` — everything except a direct
`startJob` call), the number of jobs in `processing` status never exceeds
`maxConcurrent`, which stays `2`.  A direct `startJob` call (the method is
public) breaks the bound — see the counterexample. -/
theorem C6_concurrency_bound (ops : List QueueOp)
    (hops : ∀ op ∈ ops, isStartOp op = false) :
    processingCount (runQueueOps ops initQueue) ≤ (runQueueOps ops initQueue).maxConcurrent
    ∧ (runQueueOps ops initQueue).maxConcurrent = 2 := by
  obtain ⟨-, -, -, -, hcnt, hbd⟩ := queueInv_runQueueOps ops initQueue queueInv_init hops
  refine ⟨?_, maxConcurrent_runQueueOps ops initQueue⟩
  rw [hcnt]
  exact hbd

def c6wTrace : List QueueOp :=
  [QueueOp.add "t" "d" "f", QueueOp.add "t" "d" "f", QueueOp.add "t" "d" "f",
    QueueOp.next]

theorem C6_concurrency_bound_witness :
    processingCount (runQueueOps c6wTrace initQueue)
        ≤ (runQueueOps c6wTrace initQueue).maxConcurrent
    ∧ (runQueueOps c6wTrace initQueue).maxConcurrent = 2 :=
  C6_concurrency_bound c6wTrace (by decide)

def c6Trace : List QueueOp :=
  [QueueOp.add "t" "d" "f", QueueOp.add "t" "d" "f", QueueOp.add "t" "d" "f",
    QueueOp.start 2]

/-- Claim C6 counterexample: three `addJob` calls fill the two slots and
leave job `2` queued; a direct `startJob 2` call (the method is public and
checks only that the job is queued, not the capacity) yields three jobs in
`processing` status while `maxConcurrent` is `2`. -/
theorem C6_direct_start_counterexample :
    processingCount (runQueueOps c6Trace initQueue) = 3
    ∧ (runQueueOps c6Trace initQueue).maxConcurrent = 2 := by
  constructor
  · rfl
  · rfl

/-- Claim C7: every result of a query filtered to `docA` carries metadata
whose `document_id` is `docA` — records of other documents are skipped by
the filter before scoring. -/
theorem C7_document_isolation (gen : Str → List Rat) (query : Str) (docA : String)
    (limit : Nat) (s : MemoryStore) (r : SearchResult)
    (hr : r ∈ searchSimilarChunks gen query (some docA) limit s) :
    r.metadata.document_id = docA := by
  unfold searchSimilarChunks at hr
  have h1 : r ∈ sortResults (candidateResults (gen query) (some docA) s) :=
    List.take_subset _ _ hr
  have h2 : r ∈ candidateResults (gen query) (some docA) s :=
    (stableSortDesc_perm resultLT _).mem_iff.mp h1
  unfold candidateResults at h2
  obtain ⟨a, ha, hsome⟩ := List.mem_filterMap.mp h2
  by_cases hc : (some docA).all (fun docId => a.2.1.document_id == docId) = true
  · rw [if_pos hc] at hsome
    injection hsome with hs
    subst hs
    simp only [Option.all_some] at hc
    exact eq_of_beq hc
  · rw [if_neg hc] at hsome
    exact absurd hsome (by simp)

def wMeta7a : ChunkMetadata :=
  { document_id := "docA", chunk_index := 0, chunk_text := []
    page_number := 1, start_char := 0, end_char := 0, extra := [] }

def wMeta7b : ChunkMetadata :=
  { wMeta7a with
    document_id := "docB" }

def wStore7 : MemoryStore :=
  { documents := ["a".data, "b".data]
    embeddings := [[1, 0], [0, 1]]
    metadatas := [wMeta7a, wMeta7b]
    ids := ["docA_chunk_0", "docB_chunk_0"] }

def wGen7 : Str → List Rat := fun _ => [1, 0]

def wDefault7 : SearchResult :=
  { content := [], simPair := (0, 0), metadata := wMeta7a, id := "" }

theorem C7_document_isolation_witness :
    ((searchSimilarChunks wGen7 "q".data (some "docA") 5 wStore7).headD
        wDefault7).metadata.document_id = "docA" :=
  C7_document_isolation wGen7 "q".data "docA" 5 wStore7 _
    (by exact List.mem_cons_self _ _)

/-- Claim C8: every chunk produced by a terminating `chunkText` run with
`totalPages >= 1` has its `estimatedPage` clamped into `[1, totalPages]`. -/
theorem C8_page_bounds (O : RegexOracle) (fuel : Nat) (text : Str)
    (csz ov tp : Int) (chunks : List Chunk) (htp : 1 ≤ tp)
    (h : chunkText O fuel text csz ov tp = some chunks) :
    ∀ c ∈ chunks, 1 ≤ c.estimatedPage ∧ c.estimatedPage ≤ tp :=
  chunkText_page_bounds O fuel text csz ov tp chunks htp h

def c8wChunks : List Chunk := (chunkText trivOracle 2 "hi".data 1000 200 3).getD []

theorem C8_page_bounds_witness :
    1 ≤ (c8wChunks.headD default).estimatedPage
    ∧ (c8wChunks.headD default).estimatedPage ≤ 3 :=
  C8_page_bounds trivOracle 2 "hi".data 1000 200 3 c8wChunks (by decide) rfl
    (c8wChunks.headD default) (by exact List.mem_cons_self _ _)

/-- Claim C9: `isReadyForChat(documentId)` is `true` exactly when the
tracker holds a record for that id with status `completed`; in particular
it is `false` for an unknown id and for a record in `error` status. -/
theorem C9_isReadyForChat_completed (documentId : String) (s : DocStatusState) :
    (isReadyForChat documentId s = true ↔
      ∃ info, getStatus documentId s = some info ∧ info.status = DocStatus.completed)
    ∧ (getStatus documentId s = none → isReadyForChat documentId s = false)
    ∧ (∀ info, getStatus documentId s = some info → info.status = DocStatus.error →
        isReadyForChat documentId s = false) := by
  refine ⟨isReadyForChat_eq_true_iff documentId s, ?_, ?_⟩
  · intro h
    unfold isReadyForChat
    rw [h]
  · intro info hinfo herr
    unfold isReadyForChat
    rw [hinfo]
    dsimp only
    rw [herr]
    rfl

/-- Claim C10: after any sequence of `vectorizeDocument` (with an embedding
gateway returning one vector per chunk) and `deleteDocument` operations from
the empty store, the four parallel arrays are the columns of one record
list: they have equal length, and at every index the id is built from that
record's own metadata (`document_id`, `chunk_index`) while the metadata's
preview text is the preview of that record's own document — each row
originates from a single chunk of a single document. -/
theorem C10_store_alignment (ops : List StoreOp)
    (hops : ∀ op ∈ ops, GoodStoreOp op) :
    ∃ rs : List VecRecord,
      runStoreOps ops emptyStore = projectStore rs
      ∧ (runStoreOps ops emptyStore).ids = rs.map (·.id)
      ∧ (runStoreOps ops emptyStore).embeddings = rs.map (·.embedding)
      ∧ (runStoreOps ops emptyStore).documents = rs.map (·.document)
      ∧ (runStoreOps ops emptyStore).metadatas = rs.map (·.metadata)
      ∧ ∀ r ∈ rs, CoherentRecord r := by
  obtain ⟨rs, hrun, hco⟩ := runStoreOps_project ops []
    (fun r hr => absurd hr (List.not_mem_nil r)) hops
  have hrun2 : runStoreOps ops emptyStore = projectStore rs := hrun
  refine ⟨rs, hrun2, ?_, ?_, ?_, ?_, hco⟩ <;> (rw [hrun2]; rfl)

def c10wOps : List StoreOp := [StoreOp.delete "docA"]

theorem C10_store_alignment_witness :
    ∃ rs : List VecRecord,
      runStoreOps c10wOps emptyStore = projectStore rs
      ∧ (runStoreOps c10wOps emptyStore).ids = rs.map (·.id)
      ∧ (runStoreOps c10wOps emptyStore).embeddings = rs.map (·.embedding)
      ∧ (runStoreOps c10wOps emptyStore).documents = rs.map (·.document)
      ∧ (runStoreOps c10wOps emptyStore).metadatas = rs.map (·.metadata)
      ∧ ∀ r ∈ rs, CoherentRecord r :=
  C10_store_alignment c10wOps (by
    intro op hop
    rw [show c10wOps = [StoreOp.delete "docA"] from rfl] at hop
    cases hop with
    | head => exact trivial
    | tail _ h => exact absurd h (List.not_mem_nil op))

end PdfRag
